import Mathlib

/-!
Shallow embedding of the pnyxdb consensus core, translated from the Go
source of technicolor-research/pnyxdb.

The main object is the query store (`src/consensus/query_store.go`): an
in-memory map from query uuids to query records carrying endorsements,
dependency edges, a lifecycle state and an applicability cache.  Go maps
are modelled as association lists with Go's read/write semantics
(a read of a missing key yields the zero value, a write replaces the
entry or appends it).  The recursive procedures `cascadeMark` and
`isApplicable` recurse through the dependency graph; their recursion
depth in Go is bounded by the number of map entries whenever the Go code
terminates, so they take an explicit depth budget that the public entry
points instantiate with a bound that dominates every terminating Go run.
-/

/-- Query, reduced to the fields the consensus core reads
(`Uuid`, plus an abstraction `expiredOld` of
`ExpiredSince(deltaOld)`, the time predicate read by `CheckState`). -/
structure Query where
  uuid : String
  expiredOld : Bool := false
deriving DecidableEq, Repr

/-- Endorsement (`Uuid` of the endorsed query, `Emitter`, `Conditions`). -/
structure Endorsement where
  uuid : String
  emitter : String
  conditions : List String
deriving DecidableEq, Repr

/-- `cachedInfo` from query_store.go: a cached boolean plus a freshness flag. -/
structure CachedInfo where
  result : Bool := false
  fresh : Bool := false
deriving DecidableEq, Repr

/-- `queryState`: pending (zero value), committed, dropped. -/
inductive QState
  | qPending
  | qCommitted
  | qDropped
deriving DecidableEq, Repr

/-- `endorsementInfo`: an endorsement plus its validity cache. -/
structure EndorsementInfo where
  e : Endorsement
  cached : CachedInfo := {}
deriving DecidableEq, Repr

/-- `queryInfo`: the per-query record of the store.  The embedded
`*Query` pointer is an `Option` (it is nil in Go's zero value). -/
structure QueryInfo where
  query : Option Query := none
  endorsements : List EndorsementInfo := []
  dependents : List String := []
  state : QState := .qPending
  endorsed : Bool := false
  applied : Bool := false
  cached : CachedInfo := {}
deriving DecidableEq, Repr

/-- `qi.Uuid` in Go promotes the embedded `*Query`; on a nil query the Go
code would fault, we return `""` (unreachable on key-consistent stores). -/
def QueryInfo.uuidOf (qi : QueryInfo) : String :=
  match qi.query with
  | some q => q.uuid
  | none => ""

/-- `queryStore`: the three containers plus the quorum threshold. -/
structure Store where
  queries : List (String × QueryInfo) := []
  pendingDependencies : List (String × List String) := []
  pendingEndorsements : List Endorsement := []
  threshold : Nat := 0
deriving DecidableEq, Repr

/-- Go map read: first binding for the key, if any. -/
def qfind : List (String × QueryInfo) → String → Option QueryInfo
  | [], _ => none
  | p :: rest, u => if p.1 = u then some p.2 else qfind rest u

/-- Go map write: replace the binding if present, else append it. -/
def qset (m : List (String × QueryInfo)) (u : String) (qi : QueryInfo) :
    List (String × QueryInfo) :=
  if (qfind m u).isSome then
    m.map (fun p => if p.1 = u then (u, qi) else p)
  else
    m ++ [(u, qi)]

/-- Go map read for `pendingDependencies` (missing key reads as nil). -/
def pdFind : List (String × List String) → String → List String
  | [], _ => []
  | p :: rest, u => if p.1 = u then p.2 else pdFind rest u

/-- Go map write for `pendingDependencies`. -/
def pdSet (m : List (String × List String)) (u : String) (v : List String) :
    List (String × List String) :=
  if (m.map Prod.fst).contains u then
    m.map (fun p => if p.1 = u then (u, v) else p)
  else
    m ++ [(u, v)]

/-- `delete(qs.pendingDependencies, uuid)`. -/
def pdErase (m : List (String × List String)) (u : String) :
    List (String × List String) :=
  m.filter (fun p => p.1 ≠ u)

/-- `addToSet` from query_store.go: append the value unless present. -/
def addToSet (set : List String) (value : String) : List String :=
  if set.contains value then set else set ++ [value]

/-- `addEndorsementInternal`: reject a second endorsement from the same
emitter; otherwise register one dependency edge per condition (into the
condition's record if present, else into `pendingDependencies`) and
append the endorsement to the (caller-owned) record.  Returns
`((inserted, updated record), updated store)`. -/
def addEndorsementInternal (s : Store) (e : Endorsement) (qi : QueryInfo) :
    (Bool × QueryInfo) × Store :=
  if qi.endorsements.any (fun e2 => e2.e.emitter = e.emitter) then
    ((false, qi), s)
  else
    let s' := e.conditions.foldl (fun s2 c =>
      match qfind s2.queries c with
      | some qic =>
          let qic' := { qic with dependents := addToSet qic.dependents qi.uuidOf }
          { s2 with queries := qset s2.queries c qic' }
      | none =>
          let v := addToSet (pdFind s2.pendingDependencies c) qi.uuidOf
          { s2 with pendingDependencies := pdSet s2.pendingDependencies c v }) s
    ((true, { qi with endorsements := qi.endorsements ++ [{ e := e }] }), s')

/-- Mark every endorsement of `qid` whose conditions contain `selfU` as
stale (the inner loop of `cascadeMark`). -/
def markEnds (qid : QueryInfo) (selfU : String) : QueryInfo :=
  { qid with endorsements := qid.endorsements.map (fun ei =>
      if ei.e.conditions.contains selfU then
        { ei with cached := { ei.cached with fresh := false } }
      else ei) }

/-- The dependents loop of `cascadeMark`, abstracted over the recursive
call `cm` (instantiated with `cascadeMark` at a smaller depth budget). -/
def cascadeDeps (cm : Store → QueryInfo → Store) (selfU : String) :
    Store → List String → Store
  | s, [] => s
  | s, du :: rest =>
      let s' :=
        match qfind s.queries du with
        | none => s
        | some qid => cm s (markEnds qid selfU)
      cascadeDeps cm selfU s' rest

/-- `cascadeMark`: store the (already modified) record with a stale
cache; if it was fresh before, propagate staleness to its dependents.
A nil embedded query aborts (the `qi.Query == nil` guard in the source).
`fuel` bounds the recursion depth; every terminating Go run is matched
by any sufficiently large budget. -/
def cascadeMark : Nat → Store → QueryInfo → Store
  | 0, s, _ => s
  | fuel + 1, s, qi =>
    match qi.query with
    | none => s
    | some q =>
      let marked := !qi.cached.fresh
      let qi' := { qi with cached := { qi.cached with fresh := false } }
      let s1 := { s with queries := qset s.queries q.uuid qi' }
      if marked then s1
      else cascadeDeps (cascadeMark fuel) q.uuid s1 qi.dependents

/-- Depth budget used by the entry points that call `cascadeMark`. -/
def cmFuel (s : Store) : Nat := s.queries.length + 1 + 1

/-- The pending-endorsement filter loop of `AddQuery`: endorsements for
other queries are kept (in order), endorsements for `u` are injected into
the fresh record via `addEndorsementInternal`. -/
def injectLoop (u : String) :
    List Endorsement → Store → QueryInfo → List Endorsement × QueryInfo × Store
  | [], s, qi => ([], qi, s)
  | pe :: rest, s, qi =>
    if pe.uuid = u then
      let r := addEndorsementInternal s pe qi
      injectLoop u rest r.2 r.1.2
    else
      let r := injectLoop u rest s qi
      (pe :: r.1, r.2.1, r.2.2)

/-- `AddQuery`: no-op on a known uuid; otherwise create the record,
inject parked endorsements, hydrate parked dependency edges, reset the
cache to a fresh `false` and cascade. -/
def AddQuery (s : Store) (q : Query) : Bool × Store :=
  match qfind s.queries q.uuid with
  | some _ => (false, s)
  | none =>
    let r := injectLoop q.uuid s.pendingEndorsements s ({ query := some q })
    let qi2 := { r.2.1 with dependents := pdFind r.2.2.pendingDependencies q.uuid }
    let s2 := { r.2.2 with
      pendingDependencies := pdErase r.2.2.pendingDependencies q.uuid,
      pendingEndorsements := r.1 }
    let qi3 := { qi2 with cached := { result := false, fresh := true } }
    (true, cascadeMark (cmFuel s2) s2 qi3)

/-- `AddEndorsement`: park the endorsement if its query is unknown, else
insert through `addEndorsementInternal` and cascade.  Returns
`((pending, inserted), store)`. -/
def AddEndorsement (s : Store) (e : Endorsement) : (Bool × Bool) × Store :=
  match qfind s.queries e.uuid with
  | none => ((true, false), { s with pendingEndorsements := s.pendingEndorsements ++ [e] })
  | some qi =>
    let r := addEndorsementInternal s e qi
    ((false, r.1.1), cascadeMark (cmFuel r.2) r.2 r.1.2)

/-- The conditions loop of `isApplicable`, abstracted over the recursive
call: an endorsement is valid iff no condition is applicable; stops at
the first applicable condition. -/
def condsOkF (isApp : Store → String → Bool × Store) :
    Store → List String → Bool × Store
  | s, [] => (true, s)
  | s, c :: cs =>
    let p := isApp s c
    if p.1 then (false, p.2) else condsOkF isApp p.2 cs

/-- The endorsement loop of `isApplicable`: refresh every stale
endorsement cache and count the valid ones. -/
def endLoopF (isApp : Store → String → Bool × Store) :
    Store → List EndorsementInfo → List EndorsementInfo × Nat × Store
  | s, [] => ([], 0, s)
  | s, ei :: rest =>
    let p :=
      if ei.cached.fresh then (ei, s)
      else
        let q := condsOkF isApp s ei.e.conditions
        ({ ei with cached := { result := q.1, fresh := true } }, q.2)
    let r := endLoopF isApp p.2 rest
    (p.1 :: r.1, (if p.1.cached.result then 1 else 0) + r.2.1, r.2.2)

/-- `isApplicable`: false for unknown or dropped queries, true for
committed ones, else the cached result when fresh; otherwise evaluate
the endorsements (short-circuiting when fewer than `threshold` are
stored) and cache the result.  `fuel` bounds the recursion depth. -/
def isApplicable : Nat → Store → String → Bool × Store
  | 0, s, _ => (false, s)
  | fuel + 1, s, u =>
    match qfind s.queries u with
    | none => (false, s)
    | some q =>
      if q.state = .qDropped then (false, s)
      else if q.state = .qCommitted then (true, s)
      else if q.cached.fresh then (q.cached.result, s)
      else if q.endorsements.length < s.threshold then
        (false, { s with queries := qset s.queries u ({ q with cached := { result := false, fresh := true } }) })
      else
        let r := endLoopF (isApplicable fuel) s q.endorsements
        let result := decide (s.threshold ≤ r.2.1)
        let q' := { q with endorsements := r.1, cached := { result := result, fresh := true } }
        (result, { r.2.2 with queries := qset r.2.2.queries u q' })

/-- Depth budget used by the entry points that call `isApplicable`. -/
def iaFuel (s : Store) : Nat := s.queries.length + 1

/-- `drop`: mark a record dropped (zero record for an unknown uuid — the
cascade's nil-query guard then leaves the store untouched) and cascade. -/
def drop (s : Store) (u : String) : Store :=
  let qi := (qfind s.queries u).getD {}
  cascadeMark (cmFuel s) s
    ({ qi with state := .qDropped, cached := { result := false, fresh := true } })

/-- `commit`: mark the record committed and synchronously drop its
dependents. -/
def commit (s : Store) (u : String) : Store :=
  let qi := (qfind s.queries u).getD {}
  let qi1 := { qi with state := .qCommitted }
  let s1 := { s with queries := qset s.queries u qi1 }
  qi1.dependents.foldl drop s1

/-- `checkSpeculativeState`: toggle the `applied` flag to follow
applicability. -/
def checkSpeculativeState (s : Store) (u : String) (applicable : Bool) : Store :=
  match qfind s.queries u with
  | none => s
  | some qi =>
    let qi' :=
      if !applicable && qi.applied then { qi with applied := false }
      else if applicable && !qi.applied then { qi with applied := true }
      else qi
    { s with queries := qset s.queries u qi' }

/-- The conditions loop of `CheckState`: an endorsement is definitely
valid iff every condition is a known dropped query; the first failing
condition may be added to the checkpoint set when it is unknown, or
non-applicable and expired beyond the grace delta. -/
def csConds (cp : List String) (s : Store) :
    List String → Bool × List String × Store
  | [] => (true, cp, s)
  | c :: cs =>
    match qfind s.queries c with
    | some qic =>
      if qic.state = .qDropped then csConds cp s cs
      else
        let p := isApplicable (iaFuel s) s c
        let old := !p.1 && (match qic.query with | some q => q.expiredOld | none => true)
        (false, if old then addToSet cp c else cp, p.2)
    | none => (false, addToSet cp c, s)

/-- The endorsement loop of `CheckState`: count definitely valid
endorsements, accumulating checkpoint candidates. -/
def csLoop (n : Nat) (cp : List String) (s : Store) :
    List EndorsementInfo → Nat × List String × Store
  | [] => (n, cp, s)
  | ei :: rest =>
    let r := csConds cp s ei.e.conditions
    csLoop (if r.1 then n + 1 else n) r.2.1 r.2.2 rest

/-- `CheckState`: re-evaluate applicability, update the speculative
flag; when applicable and not yet committed, count the definitely valid
endorsements and commit on reaching the threshold.  Returns
`((commit, checkpoint), store)`. -/
def CheckState (s : Store) (u : String) : (Bool × List String) × Store :=
  let p := isApplicable (iaFuel s) s u
  let s2 := checkSpeculativeState p.2 u p.1
  if !p.1 then ((false, []), s2)
  else if ((qfind s2.queries u).getD {}).state = .qCommitted then ((false, []), s2)
  else
    let r := csLoop 0 [] s2 ((qfind s2.queries u).getD {}).endorsements
    if r.2.2.threshold ≤ r.1 then ((true, r.2.1), commit r.2.2 u)
    else ((false, r.2.1), r.2.2)

/-- `CheckpointDrop`: drop every listed uuid. -/
def CheckpointDrop (s : Store) (queries : List String) : Store :=
  queries.foldl drop s

/-- The state of a uuid's record, if any. -/
def stateOf (s : Store) (u : String) : Option QState :=
  (qfind s.queries u).map QueryInfo.state

/-- The dependents index of a uuid's record (empty when absent). -/
def dependentsOf (s : Store) (u : String) : List String :=
  ((qfind s.queries u).getD {}).dependents

/-- The applicability predicate evaluated on a store (result only). -/
def applicableNow (s : Store) (u : String) : Bool :=
  (isApplicable (iaFuel s) s u).1

/-- An externally driven store operation (the two message handlers that
build the store). -/
inductive QOp
  | addQ (q : Query)
  | addE (e : Endorsement)
deriving DecidableEq, Repr

/-- Apply one operation (dropping the returned flags). -/
def applyOp (s : Store) : QOp → Store
  | .addQ q => (AddQuery s q).2
  | .addE e => (AddEndorsement s e).2

/-- Run a sequence of operations against a fresh store (`newQueryStore`)
with the given threshold. -/
def run (thr : Nat) (ops : List QOp) : Store :=
  ops.foldl applyOp { threshold := thr }

/-- The endorsements that arrived (as `AddEndorsement` payloads), in
order. -/
def arrivals : List QOp → List Endorsement
  | [] => []
  | .addQ _ :: rest => arrivals rest
  | .addE e :: rest => e :: arrivals rest

/-- The endorsements that arrived for a given uuid, in order. -/
def arrivalsFor (u : String) (ops : List QOp) : List Endorsement :=
  (arrivals ops).filter (fun e => e.uuid = u)

/-- Keep the first endorsement per emitter, skipping emitters in `seen`. -/
def dedupAux (seen : List String) : List Endorsement → List Endorsement
  | [] => []
  | e :: rest =>
    if seen.contains e.emitter then dedupAux seen rest
    else e :: dedupAux (seen ++ [e.emitter]) rest

/-- Keep the first endorsement per emitter. -/
def dedupByEmitter (l : List Endorsement) : List Endorsement :=
  dedupAux [] l

/-- A proof attached to a BBC choice (`consensus.Proof`: a query or an
endorsement). -/
inductive BProof
  | q (q : Query)
  | e (e : Endorsement)
deriving DecidableEq, Repr

/-- `bbc.Choice` (the signature is abstracted by a validity predicate
passed to the execution function). -/
structure Choice where
  identifier : String
  emitter : String
  choice : Bool
  proofs : List BProof
deriving DecidableEq, Repr

/-- The receive loop of `vetoEngine.Execute` over the stream of accepted
messages: skip messages whose signature does not verify; on a false
choice decide false with the falsifier's proofs; otherwise accumulate
distinct true emitters and decide true with no proofs when their number
reaches the threshold; decide true with no proofs when the stream ends. -/
def vetoLoop (thr : Nat) (valid : Choice → Bool) :
    List Choice → List String → Bool × List BProof
  | [], _ => (true, [])
  | c :: rest, receivedT =>
    if !valid c then vetoLoop thr valid rest receivedT
    else if !c.choice then (false, c.proofs)
    else
      let r := addToSet receivedT c.emitter
      if r.length = thr then (true, [])
      else vetoLoop thr valid rest r

/-- `vetoEngine.Execute`, decision part: the acceptor filters the stream
to choices for this identifier, then the receive loop decides. -/
def vetoExecute (thr : Nat) (valid : Choice → Bool) (id : String)
    (msgs : List Choice) : Bool × List BProof :=
  vetoLoop thr valid (msgs.filter (fun c => c.identifier = id)) []

/-- Distinct emitters of valid true choices, in order of first
occurrence (the contents of `receivedT`). -/
def distinctTrueEmitters (valid : Choice → Bool) (msgs : List Choice) : List String :=
  msgs.foldl (fun acc c => if valid c && c.choice then addToSet acc c.emitter else acc) []

/-- The type-identifier table of network/protocol/protocol.go
(11 entries, indices 0 through 10). -/
def typeIdentifiers : List String :=
  ["", "consensus.Query", "consensus.Endorsement", "consensus.StartCheckpoint",
   "reserved", "reserved", "reserved", "consensus.RecoveryRequest",
   "consensus.RecoveryResponse", "reserved", "bbc.Choice"]

/-- Message names registered with the protobuf runtime
(`proto.MessageType` returns nil for any other name, in particular for
`"reserved"`). -/
def protoRegistered (n : String) : Bool :=
  ["consensus.Query", "consensus.Endorsement", "consensus.StartCheckpoint",
   "consensus.RecoveryRequest", "consensus.RecoveryResponse", "bbc.Choice"].contains n

/-- `binary.ReadUvarint`: at most 10 bytes of a 64-bit unsigned varint;
`none` models an error (truncation or overflow). -/
def readUvarintAux : List Nat → Nat → Nat → Nat → Option (Nat × List Nat)
  | [], _, _, _ => none
  | b :: rest, i, s, x =>
    if 10 ≤ i then none
    else if b < 128 then
      if i = 9 ∧ 1 < b then none
      else some (x ||| (b <<< s), rest)
    else
      if 9 ≤ i then none
      else readUvarintAux rest (i + 1) (s + 7) (x ||| ((b % 128) <<< s))

/-- Entry point for `binary.ReadUvarint`. -/
def readUvarint (l : List Nat) : Option (Nat × List Nat) :=
  readUvarintAux l 0 0 0

/-- Outcome of `protocol.Unpack`: a parsed envelope handed to
`proto.Unmarshal` (which is external code and may itself still fail on a
malformed protobuf body), an error return, or a Go runtime panic. -/
inductive UnpackResult
  | ok (tag : Nat) (body : List Nat)
  | err
  | crash
deriving DecidableEq, Repr

/-- `protocol.Unpack` on a byte stream: read the type tag (error on
empty input, on tag 0 and on tags above `len(typeIdentifiers)`), look the
tag up in `typeIdentifiers` — tag 11 indexes past the end of the
11-element table (a Go index-out-of-range panic) and the `"reserved"`
tags 4, 5, 6 and 9 produce a nil `proto.MessageType` that is then
dereferenced (a Go nil-pointer panic) — read the uvarint length, reject
lengths above 2^30 and bodies shorter than the length. -/
def Unpack (input : List Nat) : UnpackResult :=
  match input with
  | [] => .err
  | b :: rest =>
    if b = 0 ∨ typeIdentifiers.length < b then .err
    else if hb : b < typeIdentifiers.length then
      if !protoRegistered (typeIdentifiers.get ⟨b, hb⟩) then .crash
      else
        match readUvarint rest with
        | none => .err
        | some (l, rest2) =>
          if 2 ^ 30 < l then .err
          else if rest2.length < l then .err
          else .ok b (rest2.take l)
    else .crash

/-- `keyring.TrustLevel` is a byte (modelled as the byte's value). -/
abbrev TrustLevel := Nat

/-- The named trust levels. -/
def TrustNONE : TrustLevel := 0x00
/-- LOW trust. -/
def TrustLOW : TrustLevel := 0x01
/-- HIGH trust; also the default `TrustThreshold`. -/
def TrustHIGH : TrustLevel := 0x03
/-- ULTIMATE trust. -/
def TrustULTIMATE : TrustLevel := 0xff

/-- `TrustLevel.Add`: ULTIMATE absorbs; any operand at or above the
threshold saturates to the threshold; otherwise plain byte addition. -/
def TrustLevel.Add (t t2 : TrustLevel) : TrustLevel :=
  if t = TrustULTIMATE ∨ t2 = TrustULTIMATE then TrustULTIMATE
  else if TrustHIGH ≤ t ∨ TrustHIGH ≤ t2 then TrustHIGH
  else t + t2

/-- The gob-visible projection of a `queryInfo`: gob encodes the
exported fields (`Query`, `Endorsements`, `Dependents`, `State`,
`Endorsed`, `Applied`) and skips the unexported `cachedInfo`; inside
each `endorsementInfo` only the embedded `Endorsement` is encoded. -/
structure QueryInfoD where
  query : Option Query
  endorsements : List Endorsement
  dependents : List String
  state : QState
  endorsed : Bool
  applied : Bool
deriving DecidableEq, Repr

/-- Encode a record (drop the caches). -/
def dumpQI (qi : QueryInfo) : QueryInfoD :=
  { query := qi.query, endorsements := qi.endorsements.map (fun ei => ei.e),
    dependents := qi.dependents, state := qi.state,
    endorsed := qi.endorsed, applied := qi.applied }

/-- Decode a record (caches come back as gob zero values: stale). -/
def loadQI (d : QueryInfoD) : QueryInfo :=
  { query := d.query, endorsements := d.endorsements.map (fun e => { e := e }),
    dependents := d.dependents, state := d.state,
    endorsed := d.endorsed, applied := d.applied, cached := {} }

/-- The payload of a store snapshot (`Dump` writes the header and then
gob-encodes the three containers). -/
structure DumpData where
  queries : List (String × QueryInfoD)
  pendingDependencies : List (String × List String)
  pendingEndorsements : List Endorsement
deriving DecidableEq, Repr

/-- `queryStore.Dump`, at the level of the encoded values. -/
def Dump (s : Store) : DumpData :=
  { queries := s.queries.map (fun p => (p.1, dumpQI p.2)),
    pendingDependencies := s.pendingDependencies,
    pendingEndorsements := s.pendingEndorsements }

/-- `queryStore.Load`, at the level of the decoded values: gob decodes
each map into the store's existing (non-nil) map, which ADDS the decoded
entries to whatever the map already holds (same-key entries are
overwritten, other entries survive); the pending-endorsement slice is
replaced. -/
def Load (d : DumpData) (s : Store) : Store :=
  { s with
    queries := d.queries.foldl (fun m p => qset m p.1 (loadQI p.2)) s.queries,
    pendingDependencies := d.pendingDependencies.foldl (fun m p => pdSet m p.1 p.2) s.pendingDependencies,
    pendingEndorsements := d.pendingEndorsements }

/-- The store with no queries and no pending state (`newQueryStore`). -/
def emptyStore (thr : Nat) : Store :=
  { threshold := thr }

/-- The cache-free view of a record: query, state, dependents and the
underlying endorsements. -/
def obsQI (qi : QueryInfo) : Option Query × QState × List String × List Endorsement :=
  (qi.query, qi.state, qi.dependents, qi.endorsements.map (fun ei => ei.e))

/-- Two stores agree on everything except caches: same records up to
cache bits, same pending containers, same threshold. -/
def ObsEq (s s' : Store) : Prop :=
  (∀ u, (qfind s'.queries u).map obsQI = (qfind s.queries u).map obsQI) ∧
  s'.pendingDependencies = s.pendingDependencies ∧
  s'.pendingEndorsements = s.pendingEndorsements ∧
  s'.threshold = s.threshold

/-- The cache-free view of a uuid's record in a store, if any. -/
def obsF (s : Store) (v : String) : Option (Option Query × QState × List String × List Endorsement) :=
  (qfind s.queries v).map obsQI

/-- Every record is keyed by its own query's uuid (true of every store
the Go code builds: records are stored under `qi.Uuid`). -/
def KeyCons (s : Store) : Prop :=
  ∀ u qi, qfind s.queries u = some qi → ∃ q, qi.query = some q ∧ q.uuid = u

/-- Decidable check for `KeyCons`. -/
def KCb (s : Store) : Bool :=
  s.queries.all (fun p =>
    match p.2.query with
    | some q => decide (q.uuid = p.1)
    | none => false)

/-- Decidable check that the dependents index covers every stored
endorsement condition: whenever a stored endorsement of `u'` lists a
condition `c ≠ u'`, then `u'` appears in `c`'s dependents (when `c` is
known) or in `pendingDependencies[c]` (when it is not).  The Go code
maintains exactly this (a self-condition edge added by
`AddEndorsement` is overwritten when the updated record is stored). -/
def DepOKb (s : Store) : Bool :=
  s.queries.all (fun p =>
    p.2.endorsements.all (fun ei =>
      ei.e.conditions.all (fun c =>
        decide (c = p.1) ||
        (match qfind s.queries c with
         | some qc => qc.dependents.contains p.1
         | none => (pdFind s.pendingDependencies c).contains p.1))))

/-- `c` is a known query in the dropped state. -/
def droppedB (s : Store) (c : String) : Bool :=
  match qfind s.queries c with
  | some qi => decide (qi.state = .qDropped)
  | none => false

/-- All conditions are known and dropped (`definitelyValid` of
`CheckState`; true of an empty condition list). -/
def allDroppedB (s : Store) (cs : List String) : Bool :=
  cs.all (droppedB s)

/-- The underlying endorsements stored against a uuid. -/
def endorsementsOf (s : Store) (u : String) : List Endorsement :=
  (((qfind s.queries u).getD {}).endorsements).map (fun ei => ei.e)

/-- The number of definitely valid endorsements of `u`: endorsements
whose every condition is a known dropped query. -/
def countDV (s : Store) (u : String) : Nat :=
  (endorsementsOf s u).countP (fun e => allDroppedB s e.conditions)

/-- The stored endorsement list of a uuid's record, when the record
exists (`endorsementsOf` refined with presence information). -/
def endsP (s : Store) (v : String) : Option (List Endorsement) :=
  (qfind s.queries v).map (fun qi => qi.endorsements.map (fun ei => ei.e))

/-- One step of the dependency-registration loop of
`addEndorsementInternal`, named so the loop can be reasoned about as a
fold. -/
def aeiStep (qi : QueryInfo) (s2 : Store) (c : String) : Store :=
  match qfind s2.queries c with
  | some qic =>
      let qic' := { qic with dependents := addToSet qic.dependents qi.uuidOf }
      { s2 with queries := qset s2.queries c qic' }
  | none =>
      let v := addToSet (pdFind s2.pendingDependencies c) qi.uuidOf
      { s2 with pendingDependencies := pdSet s2.pendingDependencies c v }

/-- Figure 1 scenario: query q. -/
def figQ : Query := { uuid := "q" }
/-- Figure 1 scenario: query r. -/
def figR : Query := { uuid := "r" }
/-- Endorsement 1 of q, no conditions. -/
def figEq1 : Endorsement := { uuid := "q", emitter := "E1", conditions := [] }
/-- Endorsement 2 of q, no conditions. -/
def figEq2 : Endorsement := { uuid := "q", emitter := "E2", conditions := [] }
/-- Endorsement 3 of q, no conditions. -/
def figEq3 : Endorsement := { uuid := "q", emitter := "E3", conditions := [] }
/-- Endorsement 1 of r, conditioned on q. -/
def figEr1 : Endorsement := { uuid := "r", emitter := "R1", conditions := ["q"] }
/-- Endorsement 2 of r, conditioned on q. -/
def figEr2 : Endorsement := { uuid := "r", emitter := "R2", conditions := ["q"] }
/-- Endorsement 4 of r, no conditions. -/
def figEr4 : Endorsement := { uuid := "r", emitter := "R4", conditions := [] }
/-- Forward arrival order, everything except the third endorsement of q. -/
def figOpsPart : List QOp :=
  [.addQ figQ, .addQ figR, .addE figEq1, .addE figEq2, .addE figEr1, .addE figEr2, .addE figEr4]
/-- Forward arrival order, everything. -/
def figOpsFull : List QOp := figOpsPart ++ [.addE figEq3]
/-- Reverse arrival order (endorsements parked before their queries). -/
def figOpsRev : List QOp := figOpsFull.reverse

/-- Dependency chain for the cascade counterexample: q2 endorsed under
condition q1, q3 endorsed under condition q2, q1 endorsed
unconditionally; threshold 1. -/
def chainOps : List QOp :=
  [.addQ { uuid := "q1" }, .addQ { uuid := "q2" }, .addQ { uuid := "q3" },
   .addE { uuid := "q2", emitter := "A", conditions := ["q1"] },
   .addE { uuid := "q3", emitter := "B", conditions := ["q2"] },
   .addE { uuid := "q1", emitter := "C", conditions := [] }]

/-- The store of the dependency chain scenario. -/
def chainStore : Store := run 1 chainOps

/-- A minimal committable store: one query with one unconditional
endorsement, threshold 1. -/
def oneStore : Store :=
  run 1 [.addQ { uuid := "a" }, .addE { uuid := "a", emitter := "X", conditions := [] }]

/-- A validity predicate accepting every signature (for witnesses). -/
def validAll : Choice → Bool := fun _ => true

/-- A true choice by peer P1. -/
def chT1 : Choice := { identifier := "id0", emitter := "P1", choice := true, proofs := [] }
/-- A true choice by peer P2. -/
def chT2 : Choice := { identifier := "id0", emitter := "P2", choice := true, proofs := [] }
/-- A false (veto) choice by peer P3, with a proof attached. -/
def chF3 : Choice :=
  { identifier := "id0", emitter := "P3", choice := false, proofs := [.q figQ] }

/-- A store holding one pre-existing query record under key "x"
(target of the load counterexample). -/
def xStore : Store :=
  { queries := [("x", { query := some { uuid := "x" } })], threshold := 0 }

/-- A second endorsement of q by emitter E1 (different conditions, same
emitter: the dedup logic must keep the first one, `figEq1`). -/
def dupE1 : Endorsement := { uuid := "q", emitter := "E1", conditions := ["z"] }

/-- Dedup scenario: `figEq1` arrives before its query and is parked,
`figQ` arrives and re-injects it, the duplicate `dupE1` is rejected and
`figEq2` (a fresh emitter) is accepted. -/
def dedupOps : List QOp := [.addE figEq1, .addQ figQ, .addE dupE1, .addE figEq2]

theorem qfind_append_absent (m : List (String × QueryInfo)) (k : String) (v : QueryInfo)
    (x : String) (h : qfind m x = none) :
    qfind (m ++ [(k, v)]) x = if x = k then some v else none := by
  induction m with
  | nil =>
    by_cases hxk : x = k
    · subst hxk; simp [qfind]
    · have hkx : ¬(k = x) := fun hh => hxk hh.symm
      simp [qfind, hkx, hxk]
  | cons p rest ih =>
    simp only [qfind, List.cons_append] at h ⊢
    by_cases hp : p.1 = x
    · simp [hp] at h
    · simp only [hp, if_false] at h ⊢
      exact ih h

theorem qset_absent (m : List (String × QueryInfo)) (k : String) (v : QueryInfo)
    (h : qfind m k = none) : qset m k v = m ++ [(k, v)] := by
  simp [qset, h]

theorem qfind_replace (m : List (String × QueryInfo)) (k : String) (v : QueryInfo) (x : String) :
    qfind (m.map (fun p => if p.1 = k then (k, v) else p)) x
      = if x = k then (qfind m k).map (fun _ => v) else qfind m x := by
  induction m with
  | nil => by_cases hxk : x = k <;> simp [qfind, hxk]
  | cons p rest ih =>
    by_cases hpk : p.1 = k
    · by_cases hxk : x = k
      · subst hxk
        simp [qfind, List.map_cons, hpk]
      · have hkx : ¬(k = x) := fun hh => hxk hh.symm
        have hpx : ¬(p.1 = x) := by intro hh; exact hxk (hh.symm.trans hpk)
        simp only [List.map_cons, hpk, if_true, qfind, hkx, if_false, hpx]
        rw [ih]
        simp [hxk]
    · by_cases hpx : p.1 = x
      · have hxk : ¬(x = k) := by intro hh; exact hpk (hpx.trans hh)
        simp [qfind, List.map_cons, hpk, hpx, hxk]
      · simp only [List.map_cons, hpk, if_false, qfind, hpx]
        rw [ih]

theorem qfind_qset (m : List (String × QueryInfo)) (k : String) (v : QueryInfo) (x : String) :
    qfind (qset m k v) x = if x = k then some v else qfind m x := by
  cases hh : qfind m k with
  | none =>
    rw [qset_absent m k v hh]
    by_cases hxk : x = k
    · have hx : qfind m x = none := by rw [hxk]; exact hh
      rw [qfind_append_absent m k v x hx]
      simp [hxk]
    · simp only [hxk, if_false]
      induction m with
      | nil =>
        have hkx : ¬(k = x) := fun h2 => hxk h2.symm
        simp [qfind, hkx]
      | cons p rest ih =>
        simp only [qfind] at hh ⊢
        by_cases hpk : p.1 = k
        · simp [hpk] at hh
        · simp only [hpk, if_false] at hh
          by_cases hpx : p.1 = x
          · simp [List.cons_append, qfind, hpx]
          · simp only [List.cons_append, qfind, hpx, if_false]
            exact ih hh
  | some w =>
    have hrepl : qset m k v = m.map (fun p => if p.1 = k then (k, v) else p) := by
      simp [qset, hh]
    rw [hrepl, qfind_replace, hh]
    rfl

theorem pdFind_map_ne (m : List (String × List String)) (k : String) (v : List String)
    (x : String) (hxk : ¬(x = k)) :
    pdFind (m.map (fun p => if p.1 = k then (k, v) else p)) x = pdFind m x := by
  induction m with
  | nil => rfl
  | cons p rest ih =>
    by_cases hpk : p.1 = k
    · have hpx : ¬(p.1 = x) := by intro hh; exact hxk (hh.symm.trans hpk)
      have hkx : ¬(k = x) := fun hh => hxk hh.symm
      simp only [List.map_cons, hpk, if_true, pdFind, hkx, if_false, hpx]
      exact ih
    · by_cases hpx : p.1 = x
      · simp only [List.map_cons, if_neg hpk, pdFind, if_pos hpx]
      · simp only [List.map_cons, if_neg hpk, pdFind, if_neg hpx]
        exact ih

theorem pdFind_map_self (m : List (String × List String)) (k : String) (v : List String)
    (hc : (m.map Prod.fst).contains k = true) :
    pdFind (m.map (fun p => if p.1 = k then (k, v) else p)) k = v := by
  induction m with
  | nil => simp at hc
  | cons p rest ih =>
    by_cases hpk : p.1 = k
    · simp [List.map_cons, hpk, pdFind]
    · have hc' : (rest.map Prod.fst).contains k = true := by
        simp only [List.map_cons, List.contains_cons] at hc
        rcases Bool.or_eq_true_iff.mp hc with h | h
        · exact absurd (beq_iff_eq.mp h).symm hpk
        · exact h
      simp only [List.map_cons, hpk, if_false, pdFind]
      exact ih hc'

theorem pdFind_append_end (m : List (String × List String)) (k : String) (v : List String)
    (x : String) :
    pdFind (m ++ [(k, v)]) x =
      match pdFind m x, (m.map Prod.fst).contains x with
      | r, true => r
      | _, false => if k = x then v else [] := by
  induction m with
  | nil => simp [pdFind]
  | cons p rest ih =>
    by_cases hpx : p.1 = x
    · simp [List.cons_append, pdFind, hpx, List.contains_cons]
    · have hbe : ¬(x == p.1) = true := by
        intro hh; exact hpx (beq_iff_eq.mp hh).symm
      simp only [List.cons_append, pdFind, hpx, if_false, List.map_cons, List.contains_cons,
        List.append_eq]
      rw [ih]
      cases hc : (rest.map Prod.fst).contains x
      · simp [hbe]
      · simp [hbe]

theorem pdFind_nil_of_not_contains (m : List (String × List String)) (x : String)
    (hc : (m.map Prod.fst).contains x = false) : pdFind m x = [] := by
  induction m with
  | nil => rfl
  | cons p rest ih =>
    simp only [List.map_cons, List.contains_cons, Bool.or_eq_false_iff] at hc
    have hpx : ¬(p.1 = x) := by
      intro hh
      rw [hh] at hc
      simp at hc
    simp only [pdFind, hpx, if_false]
    exact ih hc.2

theorem pdFind_pdSet (m : List (String × List String)) (k : String) (v : List String)
    (x : String) : pdFind (pdSet m k v) x = if x = k then v else pdFind m x := by
  cases hc : (m.map Prod.fst).contains k with
  | true =>
    have hrepl : pdSet m k v = m.map (fun p => if p.1 = k then (k, v) else p) := by
      simp only [pdSet, hc, if_true]
    rw [hrepl]
    by_cases hxk : x = k
    · rw [hxk, pdFind_map_self m k v hc]
      simp
    · rw [pdFind_map_ne m k v x hxk]
      simp [hxk]
  | false =>
    have happ : pdSet m k v = m ++ [(k, v)] := by
      simp only [pdSet, hc, Bool.false_eq_true, if_false]
    rw [happ, pdFind_append_end]
    by_cases hxk : x = k
    · rw [hxk, hc]
      simp [pdFind_nil_of_not_contains m k hc]
    · cases hcx : (m.map Prod.fst).contains x
      · have hkx : ¬(k = x) := fun hh => hxk hh.symm
        simp [hxk, hkx, pdFind_nil_of_not_contains m x hcx]
      · simp [hxk]

theorem pdFind_pdErase (m : List (String × List String)) (u x : String) :
    pdFind (pdErase m u) x = if x = u then [] else pdFind m x := by
  induction m with
  | nil => simp [pdErase, pdFind]
  | cons p rest ih =>
    by_cases hpu : p.1 = u
    · have : pdErase (p :: rest) u = pdErase rest u := by
        simp [pdErase, List.filter_cons, hpu]
      rw [this, ih]
      by_cases hxu : x = u
      · simp [hxu]
      · have hpx : ¬(p.1 = x) := by intro hh; exact hxu ((hh.symm.trans hpu))
        simp [hxu, pdFind, hpx]
    · have : pdErase (p :: rest) u = p :: pdErase rest u := by
        simp [pdErase, List.filter_cons, hpu]
      rw [this]
      by_cases hpx : p.1 = x
      · have hxu : ¬(x = u) := by intro hh; exact hpu (hpx.trans hh)
        simp [pdFind, hpx, hxu]
      · simp only [pdFind, hpx, if_false]
        exact ih

/-- C1: Figure 1 scenario with threshold 3: with all endorsements except
the third endorsement of q inserted, r is applicable and q is not; after
the third endorsement of q, q is applicable and r is not; the reverse
arrival order (endorsements parked before their queries) produces the
same final applicability results. -/
theorem figure1_applicability :
    (applicableNow (run 3 figOpsPart) "r" = true ∧
     applicableNow (run 3 figOpsPart) "q" = false) ∧
    (applicableNow (run 3 figOpsFull) "q" = true ∧
     applicableNow (run 3 figOpsFull) "r" = false) ∧
    (applicableNow (run 3 figOpsRev) "q" = true ∧
     applicableNow (run 3 figOpsRev) "r" = false) := by
  decide

/-- C6: the spec says `Unpack` returns an error on every unsupported
type tag, but the source checks `b > len(typeIdentifiers)` instead of
`>=`, so tag 11 indexes past the end of the 11-element table and panics
(index out of range); the reserved tags (4, 5, 6, 9) pass the bounds
check, yield a nil `proto.MessageType` and panic on the nil dereference. -/
theorem unpack_panics_on_unsupported_tags :
    Unpack [11] = UnpackResult.crash ∧ Unpack [4] = UnpackResult.crash ∧
    Unpack [12] = UnpackResult.err ∧ Unpack [] = UnpackResult.err ∧
    Unpack [0] = UnpackResult.err := by
  decide

/-- C7 counterexample: at the byte trust levels a = b = 2 (neither is
ULTIMATE), `TrustLevel.Add` returns 4, not `min(HIGH, a+b) = 3`, and the
result exceeds HIGH. -/
theorem trust_add_not_min_at_two_two :
    TrustLevel.Add 2 2 = 4 ∧ (2 : TrustLevel) ≠ TrustULTIMATE ∧
    TrustLevel.Add 2 2 ≠ min TrustHIGH (2 + 2) ∧
    TrustHIGH < TrustLevel.Add 2 2 := by
  decide

/-- C7 amended: `a ⊕ b = ULTIMATE` when either operand is ULTIMATE, and
otherwise `a ⊕ b = min(HIGH, a + b)` — for every pair of bytes except
a = b = 2, where the source returns a + b = 4 > HIGH (the saturation
test `t >= HIGH` misses the sum 2 + 2). -/
theorem trust_add_amended (a b : TrustLevel) (_ha : a ≤ 255) (_hb : b ≤ 255)
    (h22 : ¬(a = 2 ∧ b = 2)) :
    TrustLevel.Add a b =
      if a = TrustULTIMATE ∨ b = TrustULTIMATE then TrustULTIMATE
      else min TrustHIGH (a + b) := by
  by_cases h1 : a = TrustULTIMATE ∨ b = TrustULTIMATE
  · simp [TrustLevel.Add, h1]
  · simp only [TrustLevel.Add, h1, if_false]
    by_cases h2 : TrustHIGH ≤ a ∨ TrustHIGH ≤ b
    · simp only [h2, if_true]
      have h3 : TrustHIGH ≤ a + b := by
        rcases h2 with h | h
        · exact Nat.le_trans h (Nat.le_add_right a b)
        · exact Nat.le_trans h (Nat.le_add_left b a)
      exact (Nat.min_eq_left h3).symm
    · simp only [h2, if_false]
      have h2a : a ≤ 2 := Nat.le_of_lt_succ (Nat.lt_of_not_le (fun h => h2 (Or.inl h)))
      have h2b : b ≤ 2 := Nat.le_of_lt_succ (Nat.lt_of_not_le (fun h => h2 (Or.inr h)))
      have h3 : a + b ≤ 3 := by
        by_cases haa : a = 2
        · have hbb : ¬(b = 2) := fun hb2 => h22 ⟨haa, hb2⟩
          have : b ≤ 1 := Nat.le_of_lt_succ (Nat.lt_of_le_of_ne h2b hbb)
          calc a + b ≤ 2 + 1 := Nat.add_le_add h2a this
          _ ≤ 3 := by exact Nat.le_refl 3
        · have : a ≤ 1 := Nat.le_of_lt_succ (Nat.lt_of_le_of_ne h2a haa)
          calc a + b ≤ 1 + 2 := Nat.add_le_add this h2b
          _ ≤ 3 := Nat.le_refl 3
      exact (Nat.min_eq_right h3).symm

/-- C7 amended, witness at a = 1, b = 2. -/
theorem trust_add_amended_witness :
    TrustLevel.Add 1 2 =
      if (1 : TrustLevel) = TrustULTIMATE ∨ (2 : TrustLevel) = TrustULTIMATE
      then TrustULTIMATE else min TrustHIGH (1 + 2) :=
  trust_add_amended 1 2 (by decide) (by decide) (by decide)

theorem foldl_qset_fresh (l : List (String × QueryInfoD)) :
    ∀ acc, (∀ p ∈ l, qfind acc p.1 = none) → (l.map Prod.fst).Nodup →
    l.foldl (fun m p => qset m p.1 (loadQI p.2)) acc
      = acc ++ l.map (fun p => (p.1, loadQI p.2)) := by
  induction l with
  | nil => intro acc _ _; simp
  | cons p t ih =>
    intro acc habs hnd
    have hp : qfind acc p.1 = none := habs p (List.mem_cons_self p t)
    have hstep : qset acc p.1 (loadQI p.2) = acc ++ [(p.1, loadQI p.2)] :=
      qset_absent acc p.1 (loadQI p.2) hp
    simp only [List.foldl_cons, hstep]
    rw [ih (acc ++ [(p.1, loadQI p.2)])]
    · simp
    · intro r hr
      have hrp : ¬(r.1 = p.1) := by
        intro hh
        have : p.1 ∈ t.map Prod.fst := hh ▸ List.mem_map_of_mem Prod.fst hr
        exact (List.nodup_cons.mp (by simpa using hnd)).1 this
      rw [qfind_append_absent acc p.1 (loadQI p.2) r.1 (habs r (List.mem_cons_of_mem p hr))]
      simp [hrp]
    · exact (List.nodup_cons.mp (by simpa using hnd)).2

theorem foldl_pdSet_fresh (l : List (String × List String)) :
    ∀ acc, (∀ p ∈ l, (acc.map Prod.fst).contains p.1 = false) → (l.map Prod.fst).Nodup →
    l.foldl (fun m p => pdSet m p.1 p.2) acc = acc ++ l := by
  induction l with
  | nil => intro acc _ _; simp
  | cons p t ih =>
    intro acc habs hnd
    have hp : (acc.map Prod.fst).contains p.1 = false := habs p (List.mem_cons_self p t)
    have hstep : pdSet acc p.1 p.2 = acc ++ [(p.1, p.2)] := by
      simp only [pdSet, hp, Bool.false_eq_true, if_false]
    simp only [List.foldl_cons, hstep]
    rw [ih (acc ++ [(p.1, p.2)])]
    · simp
    · intro r hr
      have hrp : ¬(r.1 = p.1) := by
        intro hh
        have : p.1 ∈ t.map Prod.fst := hh ▸ List.mem_map_of_mem Prod.fst hr
        exact (List.nodup_cons.mp (by simpa using hnd)).1 this
      have hracc := habs r (List.mem_cons_of_mem p hr)
      have h1 : ¬(r.1 ∈ acc.map Prod.fst) := by
        intro hmem
        have h2 : (acc.map Prod.fst).contains r.1 = true := by
          simp [List.contains, List.elem_eq_mem, hmem]
        rw [h2] at hracc
        exact Bool.noConfusion hracc
      simp [List.contains, List.elem_eq_mem, h1, hrp]
    · exact (List.nodup_cons.mp (by simpa using hnd)).2

theorem dumpQI_loadQI (d : QueryInfoD) : dumpQI (loadQI d) = d := by
  have hmap : ∀ l : List Endorsement,
      (l.map (fun e => ({ e := e } : EndorsementInfo))).map (fun ei => ei.e) = l := by
    intro l
    induction l with
    | nil => rfl
    | cons a t ih => simp only [List.map_cons, ih]
  cases d with
  | mk q es dep st en ap => simp [dumpQI, loadQI, hmap]

/-- C8 counterexample: loading the dump of an empty store into a store
that already holds a record under key "x" does not replace the previous
contents — gob decodes map entries into the existing map, so the old
record survives and the loaded store differs from the dumped one. -/
theorem load_merges_instead_of_replacing :
    Dump (Load (Dump (emptyStore 0)) xStore) ≠ Dump (emptyStore 0) := by
  decide

/-- C8 amended: loading a dump into a FRESH store restores the
gob-visible state — queries with their states, endorsements, dependents,
pendingDependencies and pendingEndorsements (applicability caches come
back as gob zero values, i.e. stale); loading into a non-empty store
merges instead of replacing. -/
theorem dump_load_fresh_roundtrip (s : Store) (thr : Nat)
    (hq : (s.queries.map Prod.fst).Nodup)
    (hp : (s.pendingDependencies.map Prod.fst).Nodup) :
    Dump (Load (Dump s) (emptyStore thr)) = Dump s := by
  have hcomp : (Prod.fst ∘ fun p : String × QueryInfo => (p.1, dumpQI p.2)) = Prod.fst :=
    funext (fun p => rfl)
  have hq2 : ((s.queries.map (fun p => (p.1, dumpQI p.2))).map Prod.fst).Nodup := by
    rw [List.map_map, hcomp]
    exact hq
  have h1 := foldl_qset_fresh (s.queries.map (fun p => (p.1, dumpQI p.2))) []
      (fun p _ => rfl) hq2
  have h2 := foldl_pdSet_fresh s.pendingDependencies [] (fun p _ => rfl) hp
  simp only [Dump, Load, emptyStore] at h1 h2 ⊢
  rw [h1, h2]
  simp [List.map_map, Function.comp, dumpQI_loadQI]

/-- C8 amended, witness: round trip through a fresh store at a concrete
two-record store. -/
theorem dump_load_fresh_roundtrip_witness :
    Dump (Load (Dump chainStore) (emptyStore 1)) = Dump chainStore :=
  dump_load_fresh_roundtrip chainStore 1 (by decide) (by decide)

theorem addToSet_length_le (set : List String) (v : String) :
    set.length ≤ (addToSet set v).length := by
  unfold addToSet
  split
  · exact Nat.le_refl _
  · simp

theorem trueStep_length_le (valid : Choice → Bool) (l : List Choice) :
    ∀ acc : List String,
    acc.length ≤
      (l.foldl (fun acc c => if valid c && c.choice then addToSet acc c.emitter else acc) acc).length := by
  induction l with
  | nil => intro acc; exact Nat.le_refl _
  | cons c t ih =>
    intro acc
    simp only [List.foldl_cons]
    by_cases hc : valid c && c.choice
    · simp only [hc, if_true]
      exact Nat.le_trans (addToSet_length_le acc c.emitter) (ih _)
    · simp only [hc, if_false]
      exact ih acc

theorem vetoLoop_false_first (thr : Nat) (valid : Choice → Bool) (c : Choice)
    (post : List Choice) (hv : valid c = true) (hc : c.choice = false) :
    ∀ (pre : List Choice) (acc : List String),
    (∀ c' ∈ pre, ¬(valid c' = true ∧ c'.choice = false)) →
    (pre.foldl (fun acc c => if valid c && c.choice then addToSet acc c.emitter else acc) acc).length < thr →
    vetoLoop thr valid (pre ++ c :: post) acc = (false, c.proofs) := by
  intro pre
  induction pre with
  | nil =>
    intro acc _ _
    simp [vetoLoop, hv, hc]
  | cons c' t ih =>
    intro acc hnf hlen
    simp only [List.cons_append, vetoLoop]
    cases hvc : valid c' with
    | false =>
      simp only [Bool.not_false, if_true]
      apply ih acc (fun x hx => hnf x (List.mem_cons_of_mem c' hx))
      simp only [List.foldl_cons, hvc, Bool.false_and, if_false] at hlen
      exact hlen
    | true =>
      have hct : c'.choice = true := by
        cases hch : c'.choice
        · exact absurd ⟨hvc, hch⟩ (hnf c' (List.mem_cons_self c' t))
        · rfl
      simp only [hvc, Bool.not_true, if_false, hct]
      have hlen' : ((addToSet acc c'.emitter).length) < thr := by
        simp only [List.foldl_cons, hvc, hct, Bool.and_self, if_true] at hlen
        exact Nat.lt_of_le_of_lt (trueStep_length_le valid t (addToSet acc c'.emitter)) hlen
      have hne : ¬((addToSet acc c'.emitter).length = thr) := Nat.ne_of_lt hlen'
      simp only [hne, if_false]
      apply ih (addToSet acc c'.emitter) (fun x hx => hnf x (List.mem_cons_of_mem c' hx))
      simp only [List.foldl_cons, hvc, hct, Bool.and_self, if_true] at hlen
      exact hlen

theorem vetoLoop_all_true (thr : Nat) (valid : Choice → Bool) :
    ∀ (msgs : List Choice) (acc : List String),
    (∀ c ∈ msgs, ¬(valid c = true ∧ c.choice = false)) →
    vetoLoop thr valid msgs acc = (true, []) := by
  intro msgs
  induction msgs with
  | nil => intro acc _; rfl
  | cons c t ih =>
    intro acc hnf
    simp only [vetoLoop]
    cases hvc : valid c with
    | false =>
      simp only [Bool.not_false, if_true]
      exact ih acc (fun x hx => hnf x (List.mem_cons_of_mem c hx))
    | true =>
      have hct : c.choice = true := by
        cases hch : c.choice
        · exact absurd ⟨hvc, hch⟩ (hnf c (List.mem_cons_self c t))
        · rfl
      simp only [hvc, Bool.not_true, if_false, hct]
      by_cases hthr : (addToSet acc c.emitter).length = thr
      · simp [hthr]
      · simp only [hthr, if_false]
        exact ih (addToSet acc c.emitter) (fun x hx => hnf x (List.mem_cons_of_mem c hx))

/-- C4: over the accepted stream for this identifier, the first validly
signed false choice (received while fewer than threshold-many distinct
valid true emitters have been seen) makes `Execute` decide false with
exactly that message's proofs; when no validly signed false choice is
received, `Execute` decides true with empty proofs. -/
theorem veto_decision (thr : Nat) (valid : Choice → Bool) (id : String)
    (msgs pre post : List Choice) (c : Choice) :
    (msgs.filter (fun m => m.identifier = id) = pre ++ c :: post →
      (∀ c' ∈ pre, ¬(valid c' = true ∧ c'.choice = false)) →
      valid c = true → c.choice = false →
      (distinctTrueEmitters valid pre).length < thr →
      vetoExecute thr valid id msgs = (false, c.proofs)) ∧
    ((∀ c' ∈ msgs.filter (fun m => m.identifier = id), ¬(valid c' = true ∧ c'.choice = false)) →
      vetoExecute thr valid id msgs = (true, [])) := by
  constructor
  · intro hsplit hnf hv hc hlen
    unfold vetoExecute
    rw [hsplit]
    exact vetoLoop_false_first thr valid c post hv hc pre [] hnf hlen
  · intro hnf
    unfold vetoExecute
    exact vetoLoop_all_true thr valid _ [] hnf

/-- C4 witness: with threshold 2, one valid true choice followed by a
valid false choice decides false with the falsifier's proofs; a stream
of two valid true choices decides true with no proofs. -/
theorem veto_decision_witness :
    vetoExecute 2 validAll "id0" [chT1, chF3, chT2] = (false, chF3.proofs) ∧
    vetoExecute 2 validAll "id0" [chT1, chT2] = (true, []) :=
  ⟨(veto_decision 2 validAll "id0" [chT1, chF3, chT2] [chT1] [chT2] chF3).1
      (by decide) (by decide) (by decide) (by decide) (by decide),
   (veto_decision 2 validAll "id0" [chT1, chT2] [] [] chT1).2 (by decide)⟩

/-- C9: when the accepted stream closes before any validly signed false
choice and before the distinct valid true emitters reach the threshold,
`Execute` returns decision true with no proofs — indistinguishable from
a unanimous-true decision. -/
theorem veto_stream_close (thr : Nat) (valid : Choice → Bool) (id : String)
    (msgs : List Choice)
    (hnf : ∀ c ∈ msgs.filter (fun m => m.identifier = id), ¬(valid c = true ∧ c.choice = false))
    (_hlen : (distinctTrueEmitters valid (msgs.filter (fun m => m.identifier = id))).length < thr) :
    vetoExecute thr valid id msgs = (true, []) := by
  unfold vetoExecute
  exact vetoLoop_all_true thr valid _ [] hnf

/-- C9 witness: a single valid true choice with threshold 3. -/
theorem veto_stream_close_witness :
    vetoExecute 3 validAll "id0" [chT1] = (true, []) :=
  veto_stream_close 3 validAll "id0" [chT1] (by decide) (by decide)

theorem obsQI_cache (qi : QueryInfo) (ci : CachedInfo) :
    obsQI { qi with cached := ci } = obsQI qi := rfl

theorem obsQI_markEnds (qid : QueryInfo) (selfU : String) :
    obsQI (markEnds qid selfU) = obsQI qid := by
  have h : ∀ l : List EndorsementInfo,
      (l.map (fun ei =>
        if ei.e.conditions.contains selfU then
          { ei with cached := { ei.cached with fresh := false } }
        else ei)).map (fun ei => ei.e) = l.map (fun ei => ei.e) := by
    intro l
    induction l with
    | nil => rfl
    | cons a t ih =>
      simp only [List.map_cons, ih, List.cons.injEq, and_true]
      split <;> rfl
  exact congrArg (fun l => (qid.query, qid.state, qid.dependents, l)) (h qid.endorsements)

theorem qfind_mem : ∀ (m : List (String × QueryInfo)) (u : String) (qi : QueryInfo),
    qfind m u = some qi → (u, qi) ∈ m := by
  intro m
  induction m with
  | nil =>
    intro u qi h
    rw [show qfind [] u = none from rfl] at h
    exact Option.noConfusion h
  | cons p rest ih =>
    intro u qi h
    simp only [qfind] at h
    by_cases hp : p.1 = u
    · simp only [hp, if_true] at h
      have : p = (u, qi) := by
        cases p
        simp only at hp
        simp only [Option.some.injEq] at h
        rw [hp, h]
      rw [← this]
      exact List.mem_cons_self p rest
    · simp only [hp, if_false] at h
      exact List.mem_cons_of_mem p (ih u qi h)

theorem keycons_of_kcb (s : Store) (h : KCb s = true) : KeyCons s := by
  intro u qi hfind
  have hmem : (u, qi) ∈ s.queries := qfind_mem s.queries u qi hfind
  have hall := (List.all_eq_true.mp h) (u, qi) hmem
  cases hq : qi.query with
  | none =>
    rw [hq] at hall
    exact absurd hall (by simp)
  | some q =>
    rw [hq] at hall
    simp only [decide_eq_true_eq] at hall
    exact ⟨q, rfl, hall⟩

theorem keycons_qset (s : Store) (k : String) (qi : QueryInfo) (q : Query)
    (hkc : KeyCons s) (hq : qi.query = some q) (hk : q.uuid = k) :
    KeyCons { s with queries := qset s.queries k qi } := by
  intro v w hfind
  have hfind' : qfind (qset s.queries k qi) v = some w := hfind
  rw [qfind_qset] at hfind'
  by_cases hv : v = k
  · rw [if_pos hv] at hfind'
    have hqw : qi = w := Option.some.inj hfind'
    exact ⟨q, hqw ▸ hq, hk.trans hv.symm⟩
  · rw [if_neg hv] at hfind'
    exact hkc v w hfind'

theorem cascadeDeps_fields (cm : Store → QueryInfo → Store) (selfU : String)
    (hcm : ∀ s x, (cm s x).pendingDependencies = s.pendingDependencies ∧
      (cm s x).pendingEndorsements = s.pendingEndorsements ∧
      (cm s x).threshold = s.threshold) :
    ∀ (deps : List String) (s : Store),
    (cascadeDeps cm selfU s deps).pendingDependencies = s.pendingDependencies ∧
    (cascadeDeps cm selfU s deps).pendingEndorsements = s.pendingEndorsements ∧
    (cascadeDeps cm selfU s deps).threshold = s.threshold := by
  intro deps
  induction deps with
  | nil => intro s; exact ⟨rfl, rfl, rfl⟩
  | cons du rest ih =>
    intro s
    simp only [cascadeDeps]
    cases hdu : qfind s.queries du with
    | none => exact ih s
    | some qid =>
      have h1 := hcm s (markEnds qid selfU)
      have h2 := ih (cm s (markEnds qid selfU))
      exact ⟨h2.1.trans h1.1, h2.2.1.trans h1.2.1, h2.2.2.trans h1.2.2⟩

theorem cascadeMark_fields (fuel : Nat) :
    ∀ (s : Store) (qi : QueryInfo),
    (cascadeMark fuel s qi).pendingDependencies = s.pendingDependencies ∧
    (cascadeMark fuel s qi).pendingEndorsements = s.pendingEndorsements ∧
    (cascadeMark fuel s qi).threshold = s.threshold := by
  induction fuel with
  | zero => intro s qi; exact ⟨rfl, rfl, rfl⟩
  | succ fuel ih =>
    intro s qi
    cases hq : qi.query with
    | none => simp [cascadeMark, hq]
    | some q =>
      simp only [cascadeMark, hq]
      cases hf : qi.cached.fresh with
      | false => simp [hf]
      | true =>
        simp only [hf, Bool.not_true, Bool.false_eq_true, if_false]
        exact cascadeDeps_fields (cascadeMark fuel) q.uuid ih qi.dependents _

theorem cascadeDeps_keycons (cm : Store → QueryInfo → Store) (selfU : String)
    (hcm : ∀ s x, KeyCons s → KeyCons (cm s x)) :
    ∀ (deps : List String) (s : Store), KeyCons s →
    KeyCons (cascadeDeps cm selfU s deps) := by
  intro deps
  induction deps with
  | nil => intro s h; exact h
  | cons du rest ih =>
    intro s h
    simp only [cascadeDeps]
    cases hdu : qfind s.queries du with
    | none => exact ih s h
    | some qid => exact ih _ (hcm s (markEnds qid selfU) h)

theorem cascadeMark_keycons (fuel : Nat) :
    ∀ (s : Store) (qi : QueryInfo), KeyCons s → KeyCons (cascadeMark fuel s qi) := by
  induction fuel with
  | zero => intro s qi h; exact h
  | succ fuel ih =>
    intro s qi h
    obtain ⟨oq, es, dep, st, en, ap, ca⟩ := qi
    cases oq with
    | none => simp only [cascadeMark]; exact h
    | some q =>
      simp only [cascadeMark]
      have hinst : KeyCons { s with queries := qset s.queries q.uuid ({ query := some q, endorsements := es, dependents := dep, state := st, endorsed := en, applied := ap, cached := { result := ca.result, fresh := false } }) } := keycons_qset s q.uuid _ q h rfl rfl
      cases hf : ca.fresh with
      | false =>
        simp only [hf, Bool.not_false, if_true]
        exact hinst
      | true =>
        simp only [hf, Bool.not_true, Bool.false_eq_true, if_false]
        exact cascadeDeps_keycons (cascadeMark fuel) q.uuid ih dep _ hinst

theorem obsF_qset (s : Store) (k : String) (qi : QueryInfo) (v : String) :
    obsF { s with queries := qset s.queries k qi } v
      = if v = k then some (obsQI qi) else obsF s v := by
  unfold obsF
  have : qfind (qset s.queries k qi) v = if v = k then some qi else qfind s.queries v :=
    qfind_qset s.queries k qi v
  simp only [this]
  by_cases hv : v = k <;> simp [hv]

theorem obsF_of_find (s : Store) (u : String) (qi : QueryInfo)
    (h : qfind s.queries u = some qi) : obsF s u = some (obsQI qi) := by
  unfold obsF
  rw [h]
  rfl

theorem cascadeDeps_obs (cm : Store → QueryInfo → Store) (selfU : String)
    (hkeep : ∀ s x, KeyCons s → KeyCons (cm s x))
    (hobs : ∀ (s : Store) (du : String) (qid : QueryInfo) (v : String), KeyCons s →
      qfind s.queries du = some qid →
      obsF (cm s (markEnds qid selfU)) v = obsF s v) :
    ∀ (deps : List String) (s : Store) (v : String), KeyCons s →
    obsF (cascadeDeps cm selfU s deps) v = obsF s v := by
  intro deps
  induction deps with
  | nil => intro s v _; rfl
  | cons du rest ih =>
    intro s v hkc
    simp only [cascadeDeps]
    cases hdu : qfind s.queries du with
    | none => exact ih s v hkc
    | some qid =>
      rw [ih _ v (hkeep s (markEnds qid selfU) hkc)]
      exact hobs s du qid v hkc hdu

theorem cascadeMark_obs (fuel : Nat) :
    ∀ (s : Store) (qi : QueryInfo) (v : String), KeyCons s →
    obsF (cascadeMark fuel s qi) v =
      if fuel ≠ 0 ∧ qi.query.map Query.uuid = some v then some (obsQI qi)
      else obsF s v := by
  induction fuel with
  | zero => intro s qi v _; simp [cascadeMark]
  | succ fuel ih =>
    intro s qi v hkc
    obtain ⟨oq, es, dep, st, en, ap, ca⟩ := qi
    cases oq with
    | none => simp [cascadeMark]
    | some q =>
      simp only [cascadeMark]
      have hinstall := obsF_qset s q.uuid ({ query := some q, endorsements := es, dependents := dep, state := st, endorsed := en, applied := ap, cached := { result := ca.result, fresh := false } }) v
      have hkc1 : KeyCons { s with queries := qset s.queries q.uuid ({ query := some q, endorsements := es, dependents := dep, state := st, endorsed := en, applied := ap, cached := { result := ca.result, fresh := false } }) } := keycons_qset s q.uuid _ q hkc rfl rfl
      cases hf : ca.fresh with
      | false =>
        simp only [hf, Bool.not_false, if_true]
        rw [hinstall]
        by_cases hv : v = q.uuid
        · simp [hv, obsQI]
        · have : ¬(q.uuid = v) := fun hh => hv hh.symm
          simp [hv, this]
      | true =>
        simp only [hf, Bool.not_true, Bool.false_eq_true, if_false]
        have hdeps := cascadeDeps_obs (cascadeMark fuel) q.uuid (cascadeMark_keycons fuel)
          (by
            intro s2 du qid v2 hkc2 hdu
            rw [ih s2 (markEnds qid q.uuid) v2 hkc2]
            rcases hkc2 du qid hdu with ⟨qdu, hq1, hq2⟩
            have hquery : (markEnds qid q.uuid).query = qid.query := rfl
            by_cases hfz : fuel = 0
            · simp [hfz]
            · by_cases hvv : du = v2
              · have hcond : (markEnds qid q.uuid).query.map Query.uuid = some v2 := by
                  rw [hquery, hq1]
                  simp [hq2, hvv]
                simp only [hfz, hcond, ne_eq, not_false_iff, true_and, if_true]
                rw [obsQI_markEnds, ← hvv, obsF_of_find s2 du qid hdu]
              · have hcond : ¬((markEnds qid q.uuid).query.map Query.uuid = some v2) := by
                  rw [hquery, hq1]
                  simp [hq2]
                  intro hh
                  exact absurd hh hvv
                simp [hcond])
          dep _ v hkc1
        rw [hdeps, hinstall]
        by_cases hv : v = q.uuid
        · simp [hv, obsQI]
        · have : ¬(q.uuid = v) := fun hh => hv hh.symm
          simp [hv, this]

theorem aei_keycons (s : Store) (e : Endorsement) (qi : QueryInfo) (hkc : KeyCons s) :
    KeyCons (addEndorsementInternal s e qi).2 := by
  unfold addEndorsementInternal
  by_cases hd : qi.endorsements.any (fun e2 => e2.e.emitter = e.emitter)
  · simp only [hd, if_true]
    exact hkc
  · simp only [hd, if_false]
    have : ∀ (cs : List String) (s2 : Store), KeyCons s2 →
        KeyCons (cs.foldl (fun s3 c =>
          match qfind s3.queries c with
          | some qic =>
              let qic' := { qic with dependents := addToSet qic.dependents qi.uuidOf }
              { s3 with queries := qset s3.queries c qic' }
          | none =>
              let v := addToSet (pdFind s3.pendingDependencies c) qi.uuidOf
              { s3 with pendingDependencies := pdSet s3.pendingDependencies c v }) s2) := by
      intro cs
      induction cs with
      | nil => intro s2 h; exact h
      | cons c rest ih =>
        intro s2 h
        simp only [List.foldl_cons]
        cases hc : qfind s2.queries c with
        | none =>
          apply ih
          intro v w hfind
          exact h v w hfind
        | some qic =>
          apply ih
          rcases h c qic hc with ⟨qc, hq1, hq2⟩
          exact keycons_qset s2 c _ qc (by exact h) hq1 hq2
    exact this e.conditions s hkc

theorem injectLoop_keycons (u : String) :
    ∀ (pes : List Endorsement) (s : Store) (qi : QueryInfo), KeyCons s →
    KeyCons (injectLoop u pes s qi).2.2 := by
  intro pes
  induction pes with
  | nil => intro s qi h; exact h
  | cons pe rest ih =>
    intro s qi h
    simp only [injectLoop]
    by_cases hpe : pe.uuid = u
    · simp only [hpe, if_true]
      exact ih _ _ (aei_keycons s pe qi h)
    · simp only [hpe, if_false]
      exact ih s qi h

theorem aei_qi_fields (s : Store) (e : Endorsement) (qi : QueryInfo) :
    (addEndorsementInternal s e qi).1.2.query = qi.query ∧
    (addEndorsementInternal s e qi).1.2.state = qi.state := by
  unfold addEndorsementInternal
  by_cases hd : qi.endorsements.any (fun e2 => e2.e.emitter = e.emitter) <;>
    simp [hd]

theorem injectLoop_qi_fields (u : String) :
    ∀ (pes : List Endorsement) (s : Store) (qi : QueryInfo),
    (injectLoop u pes s qi).2.1.query = qi.query ∧
    (injectLoop u pes s qi).2.1.state = qi.state := by
  intro pes
  induction pes with
  | nil => intro s qi; exact ⟨rfl, rfl⟩
  | cons pe rest ih =>
    intro s qi
    simp only [injectLoop]
    by_cases hpe : pe.uuid = u
    · simp only [hpe, if_true]
      have h1 := ih (addEndorsementInternal s pe qi).2 (addEndorsementInternal s pe qi).1.2
      have h2 := aei_qi_fields s pe qi
      exact ⟨h1.1.trans h2.1, h1.2.trans h2.2⟩
    · simp only [hpe, if_false]
      exact ih s qi

theorem stateOf_obsF (s : Store) (u : String) :
    stateOf s u = (obsF s u).map (fun t => t.2.1) := by
  unfold stateOf obsF
  cases qfind s.queries u <;> rfl

/-- C10: dropping a uuid that is not in the store leaves the store
completely unchanged (no dropped record is created), so a subsequent
`AddQuery` for that uuid inserts it in the pending state. -/
theorem checkpointdrop_unknown_uuid (s : Store) (u : String) (q : Query)
    (hkc : KCb s = true) (habs : qfind s.queries u = none) (hq : q.uuid = u) :
    CheckpointDrop s [u] = s ∧
    stateOf (AddQuery (CheckpointDrop s [u]) q).2 u = some QState.qPending := by
  have h1 : CheckpointDrop s [u] = s := by
    unfold CheckpointDrop
    simp only [List.foldl_cons, List.foldl_nil]
    unfold drop
    rw [habs]
    simp only [Option.getD_none, cmFuel]
    simp [cascadeMark]
  refine ⟨h1, ?_⟩
  rw [h1]
  have habs' : qfind s.queries q.uuid = none := by rw [hq]; exact habs
  unfold AddQuery
  rw [habs']
  simp only []
  have hkc0 : KeyCons s := keycons_of_kcb s hkc
  have hkc2 : KeyCons (injectLoop q.uuid s.pendingEndorsements s ({ query := some q })).2.2 :=
    injectLoop_keycons q.uuid s.pendingEndorsements s _ hkc0
  have hfields := injectLoop_qi_fields q.uuid s.pendingEndorsements s ({ query := some q })
  rw [stateOf_obsF]
  rw [cascadeMark_obs _ _ _ u (by exact hkc2)]
  have hcond : ((({ (injectLoop q.uuid s.pendingEndorsements s ({ query := some q })).2.1 with dependents := pdFind (injectLoop q.uuid s.pendingEndorsements s ({ query := some q })).2.2.pendingDependencies q.uuid} : QueryInfo)) : QueryInfo).query.map Query.uuid = some u := by
    simp only [hfields.1]
    simp [hq]
  simp only [cmFuel, ne_eq, Nat.succ_ne_zero, not_false_iff, true_and]
  rw [if_pos]
  · simp only [obsQI, Option.map_some]
    have : (({ (injectLoop q.uuid s.pendingEndorsements s ({ query := some q })).2.1 with dependents := pdFind (injectLoop q.uuid s.pendingEndorsements s ({ query := some q })).2.2.pendingDependencies q.uuid } : QueryInfo)).state = QState.qPending := hfields.2
    simp [this]
    exact hfields.2
  · exact hcond

/-- C10 witness: a concrete store with one query, dropping an unknown
uuid "zz" then inserting it. -/
theorem checkpointdrop_unknown_uuid_witness :
    CheckpointDrop oneStore ["zz"] = oneStore ∧
    stateOf (AddQuery (CheckpointDrop oneStore ["zz"]) ({ uuid := "zz" })).2 "zz"
      = some QState.qPending :=
  checkpointdrop_unknown_uuid oneStore "zz" ({ uuid := "zz" }) (by decide) (by decide) (by decide)

theorem drop_absent (s : Store) (d : String) (h : qfind s.queries d = none) :
    drop s d = s := by
  unfold drop
  rw [h]
  simp only [Option.getD_none, cmFuel]
  simp [cascadeMark]

theorem drop_keycons (s : Store) (d : String) (hkc : KeyCons s) : KeyCons (drop s d) :=
  cascadeMark_keycons _ s _ hkc

theorem isSome_of_obsF (s s' : Store) (v : String) (h : obsF s' v = obsF s v) :
    (qfind s'.queries v).isSome = (qfind s.queries v).isSome := by
  unfold obsF at h
  cases h1 : qfind s'.queries v with
  | none =>
    rw [h1] at h
    cases h2 : qfind s.queries v with
    | none => rfl
    | some w => rw [h2] at h; exact Option.noConfusion h
  | some w =>
    rw [h1] at h
    cases h2 : qfind s.queries v with
    | none => rw [h2] at h; exact Option.noConfusion h
    | some w2 => rfl

theorem drop_stateOf (s : Store) (d v : String) (hkc : KeyCons s) :
    stateOf (drop s d) v =
      if d = v ∧ (qfind s.queries d).isSome = true then some QState.qDropped
      else stateOf s v := by
  cases hd : qfind s.queries d with
  | none =>
    rw [drop_absent s d hd]
    simp [hd]
  | some qi =>
    rcases hkc d qi hd with ⟨qd, hq1, hq2⟩
    have hobs := cascadeMark_obs (cmFuel s) s
      ({ qi with state := QState.qDropped, cached := { result := false, fresh := true } }) v hkc
    have hcond : (({ qi with state := QState.qDropped, cached := { result := false, fresh := true } } : QueryInfo)).query.map Query.uuid = if d = v then some v else (some qd.uuid) := by
      simp only [hq1, Option.map_some]
      by_cases hdv : d = v
      · simp [hdv, hq2, hdv ▸ hq2]
      · simp [hq2, hdv]
    rw [stateOf_obsF]
    unfold drop
    rw [hd]
    simp only [Option.getD_some]
    rw [hobs]
    by_cases hdv : d = v
    · rw [hdv] at hcond
      simp only [hcond, if_pos rfl, cmFuel, ne_eq, Nat.succ_ne_zero, not_false_iff, true_and]
      simp [hd, hdv, obsQI]
    · have hvne : ¬((({ qi with state := QState.qDropped, cached := { result := false, fresh := true } } : QueryInfo)).query.map Query.uuid = some v) := by
        rw [hcond]
        simp only [hdv, if_false, Option.some.injEq]
        intro hh
        exact hdv (hq2.symm.trans hh)
      simp only [hvne, and_false, if_false]
      · rw [← stateOf_obsF]
        simp [hdv]

theorem obsF_isSome (s : Store) (v : String) :
    (obsF s v).isSome = (qfind s.queries v).isSome := by
  unfold obsF
  cases qfind s.queries v <;> rfl

theorem drop_presence (s : Store) (d v : String) (hkc : KeyCons s)
    (h : (qfind s.queries v).isSome = true) :
    (qfind (drop s d).queries v).isSome = true := by
  cases hd : qfind s.queries d with
  | none =>
    rw [drop_absent s d hd]
    exact h
  | some qi =>
    have hobs := cascadeMark_obs (cmFuel s) s
      ({ qi with state := QState.qDropped, cached := { result := false, fresh := true } }) v hkc
    have hiso : (qfind (drop s d).queries v).isSome = (obsF (drop s d) v).isSome :=
      (obsF_isSome _ v).symm
    rw [hiso]
    unfold drop
    rw [hd]
    simp only [Option.getD_some]
    rw [hobs]
    by_cases hcond : cmFuel s ≠ 0 ∧ (({ qi with state := QState.qDropped, cached := { result := false, fresh := true } } : QueryInfo)).query.map Query.uuid = some v
    · simp [hcond]
    · simp only [hcond, if_false]
      rw [obsF_isSome]
      exact h

theorem foldl_drop_keeps_dropped (u' : String) :
    ∀ (deps : List String) (s : Store), KeyCons s →
    stateOf s u' = some QState.qDropped →
    stateOf (deps.foldl drop s) u' = some QState.qDropped := by
  intro deps
  induction deps with
  | nil => intro s _ h; exact h
  | cons d rest ih =>
    intro s hkc h
    simp only [List.foldl_cons]
    apply ih (drop s d) (drop_keycons s d hkc)
    rw [drop_stateOf s d u' hkc]
    by_cases hc : d = u' ∧ (qfind s.queries d).isSome = true
    · rw [if_pos hc]
    · rw [if_neg hc]
      exact h

theorem foldl_drop_stateOf_skip (u : String) :
    ∀ (deps : List String) (s : Store), KeyCons s → ¬(u ∈ deps) →
    stateOf (deps.foldl drop s) u = stateOf s u := by
  intro deps
  induction deps with
  | nil => intro s _ _; rfl
  | cons d rest ih =>
    intro s hkc hmem
    simp only [List.foldl_cons]
    have hdu : ¬(d = u) := fun hh => hmem (hh ▸ List.mem_cons_self d rest)
    rw [ih (drop s d) (drop_keycons s d hkc) (fun hh => hmem (List.mem_cons_of_mem d hh))]
    rw [drop_stateOf s d u hkc]
    simp [hdu]

theorem foldl_drop_hits (u' : String) :
    ∀ (deps : List String) (s : Store), KeyCons s → u' ∈ deps →
    (qfind s.queries u').isSome = true →
    stateOf (deps.foldl drop s) u' = some QState.qDropped := by
  intro deps
  induction deps with
  | nil => intro s _ h _; exact absurd h (List.not_mem_nil u')
  | cons d rest ih =>
    intro s hkc hmem hpres
    simp only [List.foldl_cons]
    by_cases hdu : d = u'
    · apply foldl_drop_keeps_dropped u' rest (drop s d) (drop_keycons s d hkc)
      rw [drop_stateOf s d u' hkc]
      rw [hdu]
      simp [hpres]
    · have hmem' : u' ∈ rest := by
        cases List.mem_cons.mp hmem with
        | inl h => exact absurd h.symm hdu
        | inr h => exact h
      exact ih (drop s d) (drop_keycons s d hkc) hmem' (drop_presence s d u' hkc hpres)

theorem depOK_mem (s : Store) (h : DepOKb s = true) (u u' : String) (qi' qu : QueryInfo)
    (h' : qfind s.queries u' = some qi') (hu : qfind s.queries u = some qu)
    (hcond : qi'.endorsements.any (fun ei => ei.e.conditions.contains u) = true)
    (hne : ¬(u = u')) :
    u' ∈ qu.dependents := by
  have hmem : (u', qi') ∈ s.queries := qfind_mem s.queries u' qi' h'
  have hall := (List.all_eq_true.mp h) (u', qi') hmem
  rcases List.any_eq_true.mp hcond with ⟨ei, hei, hc⟩
  have hall2 := (List.all_eq_true.mp hall) ei hei
  have hcu : u ∈ ei.e.conditions := by
    simpa [List.contains, List.elem_eq_mem] using hc
  have hall3 := (List.all_eq_true.mp hall2) u hcu
  rcases Bool.or_eq_true_iff.mp hall3 with hbad | hgood
  · exact absurd (of_decide_eq_true hbad) hne
  · rw [hu] at hgood
    simpa [List.contains, List.elem_eq_mem] using hgood

/-- C3 amended: when a query u commits, every OTHER query holding a
stored endorsement whose conditions include u is dropped before `commit`
returns; the dropping is NOT transitive (only direct dependents are
dropped — see the counterexample). -/
theorem commit_drops_direct_dependents (s : Store) (u u' : String) (qi' : QueryInfo)
    (hkcb : KCb s = true) (hdep : DepOKb s = true)
    (hu : (qfind s.queries u).isSome = true)
    (h' : qfind s.queries u' = some qi')
    (hne : ¬(u' = u))
    (hcond : qi'.endorsements.any (fun ei => ei.e.conditions.contains u) = true) :
    stateOf (commit s u) u' = some QState.qDropped := by
  have hkc : KeyCons s := keycons_of_kcb s hkcb
  cases hqu : qfind s.queries u with
  | none => rw [hqu] at hu; exact Bool.noConfusion hu
  | some qu =>
    have hmem : u' ∈ qu.dependents :=
      depOK_mem s hdep u u' qi' qu h' hqu hcond (fun hh => hne hh.symm)
    rcases hkc u qu hqu with ⟨q, hq1, hq2⟩
    unfold commit
    rw [hqu]
    simp only [Option.getD_some]
    apply foldl_drop_hits u' qu.dependents
    · exact keycons_qset s u _ q hkc hq1 hq2
    · exact hmem
    · have : qfind (qset s.queries u ({ qu with state := QState.qCommitted })) u' = qfind s.queries u' := by
        rw [qfind_qset]
        simp [hne]
      show (qfind (qset s.queries u ({ qu with state := QState.qCommitted })) u').isSome = true
      rw [this, h']
      rfl

/-- C3 counterexample: in the chain q3 → q2 → q1 (q2 endorsed under
condition q1, q3 endorsed under condition q2, threshold 1), committing
q1 through `CheckState` drops q2 but leaves q3 pending even though q3 is
conditioned on the now-dropped q2 — dropping is not transitive. -/
theorem commit_drop_not_transitive :
    (CheckState chainStore "q1").1.1 = true ∧
    stateOf (CheckState chainStore "q1").2 "q1" = some QState.qCommitted ∧
    stateOf (CheckState chainStore "q1").2 "q2" = some QState.qDropped ∧
    (((qfind chainStore.queries "q3").getD {}).endorsements.any
      (fun ei => ei.e.conditions.contains "q2")) = true ∧
    stateOf (CheckState chainStore "q1").2 "q3" = some QState.qPending := by
  decide

/-- C3 amended, witness: committing q1 in the chain store drops q2. -/
theorem commit_drops_direct_dependents_witness :
    stateOf (commit chainStore "q1") "q2" = some QState.qDropped :=
  commit_drops_direct_dependents chainStore "q1" "q2" ((qfind chainStore.queries "q2").getD {})
    (by decide) (by decide) (by decide) (by decide) (by decide) (by decide)

theorem endorsementsOf_obsF (s : Store) (u : String) :
    endorsementsOf s u = ((obsF s u).map (fun t => t.2.2.2)).getD [] := by
  unfold endorsementsOf obsF
  cases qfind s.queries u <;> rfl

theorem dependentsOf_obsF (s : Store) (u : String) :
    dependentsOf s u = ((obsF s u).map (fun t => t.2.2.1)).getD [] := by
  unfold dependentsOf obsF
  cases qfind s.queries u <;> rfl

theorem droppedB_stateOf (s : Store) (c : String) :
    droppedB s c = decide (stateOf s c = some QState.qDropped) := by
  unfold droppedB stateOf
  cases qfind s.queries c with
  | none => simp
  | some qi => simp

theorem keycons_of_obsF (s s' : Store) (h : ∀ v, obsF s' v = obsF s v)
    (hkc : KeyCons s) : KeyCons s' := by
  intro v w hfind
  have h1 : obsF s' v = some (obsQI w) := obsF_of_find s' v w hfind
  have h2 : obsF s v = some (obsQI w) := (h v).symm.trans h1
  cases hf : qfind s.queries v with
  | none => rw [show obsF s v = none by unfold obsF; rw [hf]; rfl] at h2; exact Option.noConfusion h2
  | some w2 =>
    rcases hkc v w2 hf with ⟨q, hq1, hq2⟩
    have h3 : obsF s v = some (obsQI w2) := obsF_of_find s v w2 hf
    rw [h3] at h2
    have : obsQI w2 = obsQI w := Option.some.inj h2
    have hq : w.query = some q := by
      have := congrArg Prod.fst this
      simp only [obsQI] at this
      rw [← this, hq1]
    exact ⟨q, hq, hq2⟩

theorem condsOkF_pres (isApp : Store → String → Bool × Store)
    (hApp : ∀ s u, (∀ v, obsF (isApp s u).2 v = obsF s v) ∧ (isApp s u).2.threshold = s.threshold) :
    ∀ (cs : List String) (s : Store),
    (∀ v, obsF (condsOkF isApp s cs).2 v = obsF s v) ∧
    (condsOkF isApp s cs).2.threshold = s.threshold := by
  intro cs
  induction cs with
  | nil => intro s; exact ⟨fun _ => rfl, rfl⟩
  | cons c rest ih =>
    intro s
    simp only [condsOkF]
    cases hp : (isApp s c).1 with
    | true =>
      simp only [if_true]
      exact hApp s c
    | false =>
      simp only [Bool.false_eq_true, if_false]
      have h1 := hApp s c
      have h2 := ih (isApp s c).2
      exact ⟨fun v => (h2.1 v).trans (h1.1 v), h2.2.trans h1.2⟩

theorem endLoopF_pres (isApp : Store → String → Bool × Store)
    (hApp : ∀ s u, (∀ v, obsF (isApp s u).2 v = obsF s v) ∧ (isApp s u).2.threshold = s.threshold) :
    ∀ (es : List EndorsementInfo) (s : Store),
    (∀ v, obsF (endLoopF isApp s es).2.2 v = obsF s v) ∧
    (endLoopF isApp s es).2.2.threshold = s.threshold ∧
    (endLoopF isApp s es).1.map (fun ei => ei.e) = es.map (fun ei => ei.e) := by
  intro es
  induction es with
  | nil => intro s; exact ⟨fun _ => rfl, rfl, rfl⟩
  | cons ei rest ih =>
    intro s
    simp only [endLoopF]
    by_cases hf : ei.cached.fresh
    · simp only [hf, if_true]
      have h2 := ih s
      exact ⟨h2.1, h2.2.1, by simp only [List.map_cons, h2.2.2]⟩
    · simp only [hf, Bool.false_eq_true, if_false]
      have h1 := condsOkF_pres isApp hApp ei.e.conditions s
      have h2 := ih (condsOkF isApp s ei.e.conditions).2
      refine ⟨fun v => (h2.1 v).trans (h1.1 v), h2.2.1.trans h1.2, ?_⟩
      simp only [List.map_cons, h2.2.2]

theorem isApplicable_pres (fuel : Nat) :
    ∀ (s : Store) (u : String),
    (∀ v, obsF (isApplicable fuel s u).2 v = obsF s v) ∧
    (isApplicable fuel s u).2.threshold = s.threshold := by
  induction fuel with
  | zero => intro s u; exact ⟨by intro v; first | rfl | trivial, by trivial⟩
  | succ fuel ih =>
    intro s u
    simp only [isApplicable]
    cases hq : qfind s.queries u with
    | none => exact ⟨by intro v; first | rfl | trivial, by trivial⟩
    | some q =>
      by_cases hd : q.state = QState.qDropped
      · simp only [hd, if_true]
        exact ⟨by intro v; first | rfl | trivial, by trivial⟩
      · simp only [hd, if_false]
        by_cases hc : q.state = QState.qCommitted
        · simp only [hc, if_true]
          exact ⟨by intro v; first | rfl | trivial, by trivial⟩
        · simp only [hc, if_false]
          by_cases hfr : q.cached.fresh
          · simp only [hfr, if_true]
            exact ⟨by intro v; first | rfl | trivial, by trivial⟩
          · simp only [hfr, Bool.false_eq_true, if_false]
            by_cases hlen : q.endorsements.length < s.threshold
            · simp only [hlen, if_true]
              refine ⟨fun v => ?_, by trivial⟩
              rw [obsF_qset]
              by_cases hv : v = u
              · rw [if_pos hv, hv, obsF_of_find s u q hq]
                rfl
              · rw [if_neg hv]
            · simp only [hlen, if_false]
              have hend := endLoopF_pres (isApplicable fuel) ih q.endorsements s
              refine ⟨fun v => ?_, hend.2.1⟩
              rw [obsF_qset]
              by_cases hv : v = u
              · rw [if_pos hv, hv, obsF_of_find s u q hq]
                simp only [obsQI, Option.some.injEq]
                exact congrArg (fun l => (q.query, q.state, q.dependents, l)) hend.2.2
              · rw [if_neg hv]
                exact hend.1 v

theorem checkSpeculativeState_pres (s : Store) (u : String) (a : Bool) :
    (∀ v, obsF (checkSpeculativeState s u a) v = obsF s v) ∧
    (checkSpeculativeState s u a).threshold = s.threshold := by
  unfold checkSpeculativeState
  cases hq : qfind s.queries u with
  | none => exact ⟨fun _ => rfl, rfl⟩
  | some qi =>
    refine ⟨fun v => ?_, rfl⟩
    rw [obsF_qset]
    by_cases hv : v = u
    · rw [if_pos hv, hv, obsF_of_find s u qi hq]
      split_ifs <;> rfl
    · rw [if_neg hv]

theorem stateOf_eq_of_obsF (s0 s : Store) (hobs : ∀ v, obsF s v = obsF s0 v) (c : String) :
    stateOf s c = stateOf s0 c := by
  rw [stateOf_obsF, stateOf_obsF, hobs c]

theorem csConds_spec (s0 : Store) :
    ∀ (cs : List String) (cp : List String) (s : Store),
    (∀ v, obsF s v = obsF s0 v) → s.threshold = s0.threshold →
    (csConds cp s cs).1 = allDroppedB s0 cs ∧
    (∀ v, obsF (csConds cp s cs).2.2 v = obsF s0 v) ∧
    (csConds cp s cs).2.2.threshold = s0.threshold := by
  intro cs
  induction cs with
  | nil =>
    intro cp s hobs hthr
    exact ⟨rfl, hobs, hthr⟩
  | cons c rest ih =>
    intro cp s hobs hthr
    have hstate : stateOf s c = stateOf s0 c := stateOf_eq_of_obsF s0 s hobs c
    have hdall : allDroppedB s0 (c :: rest) = (droppedB s0 c && allDroppedB s0 rest) := by
      simp [allDroppedB]
    simp only [csConds]
    cases hc : qfind s.queries c with
    | none =>
      have hdb : droppedB s0 c = false := by
        rw [droppedB_stateOf, ← hstate]
        unfold stateOf
        rw [hc]
        simp
      rw [hdall, hdb]
      exact ⟨by simp, hobs, hthr⟩
    | some qic =>
      have hsc : stateOf s c = some qic.state := by unfold stateOf; rw [hc]; rfl
      by_cases hdr : qic.state = QState.qDropped
      · have hdb : droppedB s0 c = true := by
          rw [droppedB_stateOf, ← hstate, hsc, hdr]
          simp
        simp only [hdr, if_true]
        rw [hdall, hdb]
        simpa using ih cp s hobs hthr
      · have hdb : droppedB s0 c = false := by
          rw [droppedB_stateOf, ← hstate, hsc]
          simp [hdr]
        simp only [hdr, if_false]
        rw [hdall, hdb]
        have hpres := isApplicable_pres (iaFuel s) s c
        exact ⟨by simp, fun v => (hpres.1 v).trans (hobs v), hpres.2.trans hthr⟩

theorem csLoop_spec (s0 : Store) :
    ∀ (es : List EndorsementInfo) (n : Nat) (cp : List String) (s : Store),
    (∀ v, obsF s v = obsF s0 v) → s.threshold = s0.threshold →
    (csLoop n cp s es).1 = n + es.countP (fun ei => allDroppedB s0 ei.e.conditions) ∧
    (∀ v, obsF (csLoop n cp s es).2.2 v = obsF s0 v) ∧
    (csLoop n cp s es).2.2.threshold = s0.threshold := by
  intro es
  induction es with
  | nil =>
    intro n cp s hobs hthr
    exact ⟨by simp [csLoop], hobs, hthr⟩

  | cons ei rest ih =>
    intro n cp s hobs hthr
    have hconds := csConds_spec s0 ei.e.conditions cp s hobs hthr
    simp only [csLoop]
    have hrec := ih (if (csConds cp s ei.e.conditions).1 then n + 1 else n)
      (csConds cp s ei.e.conditions).2.1 (csConds cp s ei.e.conditions).2.2 hconds.2.1 hconds.2.2
    refine ⟨?_, hrec.2.1, hrec.2.2⟩
    rw [hrec.1, hconds.1]
    rw [List.countP_cons]
    by_cases hd : allDroppedB s0 ei.e.conditions
    · simp [hd]
      omega
    · simp [hd]

theorem isApplicable_true_present (fuel : Nat) (s : Store) (u : String)
    (h : (isApplicable fuel s u).1 = true) : (qfind s.queries u).isSome = true := by
  cases fuel with
  | zero => exact Bool.noConfusion h
  | succ fuel =>
    cases hq : qfind s.queries u with
    | none =>
      exfalso
      simp only [isApplicable, hq] at h
      exact Bool.noConfusion h
    | some q => rfl

/-- C2: `CheckState u` commits (returns commit = true and moves u to the
committed state) exactly when u is applicable, not already committed,
and at least threshold-many of its stored endorsements have every
condition present in the store in the dropped state (an endorsement with
no conditions counts); otherwise commit = false and u's state is
unchanged.  The store is assumed key-consistent and u not dependent on
itself (both hold for every store the Go code builds and evaluates). -/
theorem checkstate_commit_iff (s : Store) (u : String)
    (hkcb : KCb s = true)
    (hself : ¬(u ∈ dependentsOf s u)) :
    ((CheckState s u).1.1 = true ↔
      (applicableNow s u = true ∧ stateOf s u ≠ some QState.qCommitted ∧
        s.threshold ≤ countDV s u)) ∧
    ((CheckState s u).1.1 = true → stateOf (CheckState s u).2 u = some QState.qCommitted) ∧
    ((CheckState s u).1.1 = false → stateOf (CheckState s u).2 u = stateOf s u) := by
  have hkc : KeyCons s := keycons_of_kcb s hkcb
  have hpres := isApplicable_pres (iaFuel s) s u
  have hobs2 : ∀ (b : Bool) (v : String),
      obsF (checkSpeculativeState (isApplicable (iaFuel s) s u).2 u b) v = obsF s v :=
    fun b v => ((checkSpeculativeState_pres (isApplicable (iaFuel s) s u).2 u b).1 v).trans
      (hpres.1 v)
  have hthr2 : ∀ (b : Bool),
      (checkSpeculativeState (isApplicable (iaFuel s) s u).2 u b).threshold = s.threshold :=
    fun b => ((checkSpeculativeState_pres (isApplicable (iaFuel s) s u).2 u b).2).trans hpres.2
  have happl : applicableNow s u = (isApplicable (iaFuel s) s u).1 := rfl
  simp only [CheckState]
  cases hp : (isApplicable (iaFuel s) s u).1 with
  | false =>
    simp only [Bool.not_false, if_true]
    refine ⟨?_, ?_, ?_⟩
    · simp [happl, hp]
    · intro hcontra
      exact absurd hcontra (by simp)
    · intro _
      exact stateOf_eq_of_obsF s _ (hobs2 false) u
  | true =>
    simp only [Bool.not_true, Bool.false_eq_true, if_false]
    have hs2state : stateOf (checkSpeculativeState (isApplicable (iaFuel s) s u).2 u true) u
        = stateOf s u :=
      stateOf_eq_of_obsF s _ (hobs2 true) u
    by_cases hcm : ((qfind (checkSpeculativeState (isApplicable (iaFuel s) s u).2 u
        true).queries u).getD {}).state = QState.qCommitted
    · have hscm : stateOf s u = some QState.qCommitted := by
        rw [← hs2state]
        unfold stateOf
        cases hq2 : qfind (checkSpeculativeState (isApplicable (iaFuel s) s u).2 u
            true).queries u with
        | none => rw [hq2] at hcm; exact absurd hcm (by simp)
        | some qi2 =>
          rw [hq2] at hcm
          simp only [Option.getD_some] at hcm
          simp [hcm]
      simp only [hcm, if_true]
      refine ⟨?_, ?_, ?_⟩
      · simp [hscm]
      · intro hcontra
        exact absurd hcontra (by simp)
      · intro _
        exact hs2state
    · simp only [hcm, if_false]
      have hloop := csLoop_spec s
        (((qfind (checkSpeculativeState (isApplicable (iaFuel s) s u).2 u
          true).queries u).getD {}).endorsements) 0 []
        (checkSpeculativeState (isApplicable (iaFuel s) s u).2 u true) (hobs2 true) (hthr2 true)
      have hcount : (csLoop 0 []
          (checkSpeculativeState (isApplicable (iaFuel s) s u).2 u true)
          (((qfind (checkSpeculativeState (isApplicable (iaFuel s) s u).2 u
            true).queries u).getD {}).endorsements)).1
          = countDV s u := by
        rw [hloop.1]
        have hends : endorsementsOf s u =
            (((qfind (checkSpeculativeState (isApplicable (iaFuel s) s u).2 u
              true).queries u).getD {}).endorsements).map (fun ei => ei.e) := by
          rw [endorsementsOf_obsF, ← hobs2 true u, ← endorsementsOf_obsF]
          rfl
        unfold countDV
        rw [hends, List.countP_map, Nat.zero_add]
        rfl
      have hncm : stateOf s u ≠ some QState.qCommitted := by
        rw [← hs2state]
        unfold stateOf
        cases hq2 : qfind (checkSpeculativeState (isApplicable (iaFuel s) s u).2 u
            true).queries u with
        | none => simp
        | some qi2 =>
          rw [hq2] at hcm
          simp only [Option.getD_some] at hcm
          simp [hcm]
      have hloopthr := hloop.2.2
      have hloopobs := hloop.2.1
      by_cases hcommit : (csLoop 0 []
          (checkSpeculativeState (isApplicable (iaFuel s) s u).2 u true)
          (((qfind (checkSpeculativeState (isApplicable (iaFuel s) s u).2 u
            true).queries u).getD {}).endorsements)).2.2.threshold ≤
          (csLoop 0 []
          (checkSpeculativeState (isApplicable (iaFuel s) s u).2 u true)
          (((qfind (checkSpeculativeState (isApplicable (iaFuel s) s u).2 u
            true).queries u).getD {}).endorsements)).1
      · simp only [hcommit, if_true]
        refine ⟨?_, ?_, ?_⟩
        · rw [hloopthr, hcount] at hcommit
          simp [happl, hp, hncm, hcommit]
        · intro _
          have hpresent : (qfind (csLoop 0 []
              (checkSpeculativeState (isApplicable (iaFuel s) s u).2 u true)
              (((qfind (checkSpeculativeState (isApplicable (iaFuel s) s u).2 u
                true).queries u).getD {}).endorsements)).2.2.queries u).isSome = true := by
            rw [(obsF_isSome _ u).symm, hloopobs u, obsF_isSome]
            exact isApplicable_true_present (iaFuel s) s u hp
          cases hfind : qfind (csLoop 0 []
              (checkSpeculativeState (isApplicable (iaFuel s) s u).2 u true)
              (((qfind (checkSpeculativeState (isApplicable (iaFuel s) s u).2 u
                true).queries u).getD {}).endorsements)).2.2.queries u with
          | none => rw [hfind] at hpresent; exact Bool.noConfusion hpresent
          | some qru =>
            have hkcr : KeyCons (csLoop 0 []
                (checkSpeculativeState (isApplicable (iaFuel s) s u).2 u true)
                (((qfind (checkSpeculativeState (isApplicable (iaFuel s) s u).2 u
                  true).queries u).getD {}).endorsements)).2.2 :=
              keycons_of_obsF _ _ hloopobs hkc
            rcases hkcr u qru hfind with ⟨q, hq1, hq2⟩
            unfold commit
            rw [hfind]
            simp only [Option.getD_some]
            have hdeps : qru.dependents = dependentsOf s u := by
              have h1 : dependentsOf (csLoop 0 []
                  (checkSpeculativeState (isApplicable (iaFuel s) s u).2 u true)
                  (((qfind (checkSpeculativeState (isApplicable (iaFuel s) s u).2 u
                    true).queries u).getD {}).endorsements)).2.2 u = qru.dependents := by
                unfold dependentsOf
                rw [hfind]
                rfl
              rw [← h1, dependentsOf_obsF, hloopobs u, ← dependentsOf_obsF]
            have hnotmem : ¬(u ∈ qru.dependents) := by
              rw [hdeps]
              exact hself
            rw [show (({ qru with state := QState.qCommitted } : QueryInfo)).dependents = qru.dependents from rfl]
            rw [foldl_drop_stateOf_skip u qru.dependents _
              (keycons_qset _ u ({ qru with state := QState.qCommitted }) q hkcr hq1 hq2) hnotmem]
            unfold stateOf
            show (qfind (qset _ u ({ qru with state := QState.qCommitted })) u).map QueryInfo.state = some QState.qCommitted
            rw [qfind_qset]
            simp
        · intro hcontra
          exact absurd hcontra (by simp)
      · simp only [hcommit, if_false]
        refine ⟨?_, ?_, ?_⟩
        · rw [hloopthr, hcount] at hcommit
          simp [happl, hp, hncm, hcommit]
        · intro hcontra
          exact absurd hcontra (by simp)
        · intro _
          exact stateOf_eq_of_obsF s _ hloopobs u

/-- C2 witness: a store with one query and one unconditional endorsement
at threshold 1 commits through `CheckState`. -/
theorem checkstate_commit_iff_witness :
    (((CheckState oneStore "a").1.1 = true ↔
      (applicableNow oneStore "a" = true ∧ stateOf oneStore "a" ≠ some QState.qCommitted ∧
        oneStore.threshold ≤ countDV oneStore "a")) ∧
    ((CheckState oneStore "a").1.1 = true →
      stateOf (CheckState oneStore "a").2 "a" = some QState.qCommitted) ∧
    ((CheckState oneStore "a").1.1 = false →
      stateOf (CheckState oneStore "a").2 "a" = stateOf oneStore "a")) :=
  checkstate_commit_iff oneStore "a" (by decide) (by decide)

theorem contains_append (l1 l2 : List String) (a : String) :
    (l1 ++ l2).contains a = (l1.contains a || l2.contains a) := by
  induction l1 with
  | nil => simp
  | cons x t ih =>
    simp only [List.cons_append, List.contains_cons, ih, Bool.or_assoc]

theorem arrivals_append (ops1 ops2 : List QOp) :
    arrivals (ops1 ++ ops2) = arrivals ops1 ++ arrivals ops2 := by
  induction ops1 with
  | nil => rfl
  | cons op t ih =>
    cases op with
    | addQ q => simp only [List.cons_append, arrivals, List.append_eq, ih]
    | addE e => simp only [List.cons_append, arrivals, List.append_eq, ih, List.cons_append]

theorem arrivalsFor_snoc_addQ (u : String) (ops : List QOp) (q : Query) :
    arrivalsFor u (ops ++ [.addQ q]) = arrivalsFor u ops := by
  unfold arrivalsFor
  rw [arrivals_append]
  simp [arrivals]

theorem arrivalsFor_snoc_addE (u : String) (ops : List QOp) (e : Endorsement) :
    arrivalsFor u (ops ++ [.addE e]) =
      arrivalsFor u ops ++ (if e.uuid = u then [e] else []) := by
  unfold arrivalsFor
  rw [arrivals_append]
  simp only [arrivals, List.filter_append]
  by_cases he : e.uuid = u <;> simp [List.filter, he]

theorem dedupAux_snoc (e : Endorsement) :
    ∀ (l : List Endorsement) (seen : List String),
    dedupAux seen (l ++ [e]) =
      dedupAux seen l ++
        (if seen.contains e.emitter || (l.map (fun x => x.emitter)).contains e.emitter
         then [] else [e]) := by
  intro l
  induction l with
  | nil =>
    intro seen
    simp only [List.nil_append, dedupAux, List.map_nil]
    by_cases hs : seen.contains e.emitter <;> simp [hs, dedupAux]
  | cons x t ih =>
    intro seen
    simp only [List.cons_append, dedupAux, List.append_eq]
    by_cases hx : seen.contains x.emitter
    · simp only [hx, if_true]
      rw [ih seen]
      have hcond : (seen.contains e.emitter || ((x :: t).map (fun y => y.emitter)).contains e.emitter)
          = (seen.contains e.emitter || (t.map (fun y => y.emitter)).contains e.emitter) := by
        simp only [List.map_cons, List.contains_cons]
        cases hxe : (e.emitter == x.emitter) with
        | true =>
          have heq : x.emitter = e.emitter := (beq_iff_eq.mp hxe).symm
          rw [heq] at hx
          have hm : e.emitter ∈ seen := by simpa using hx
          simp [hm]
        | false => simp
      rw [hcond]
    · simp only [hx, Bool.false_eq_true, if_false]
      rw [ih (seen ++ [x.emitter])]
      have hcond : ((seen ++ [x.emitter]).contains e.emitter || (t.map (fun y => y.emitter)).contains e.emitter)
          = (seen.contains e.emitter || ((x :: t).map (fun y => y.emitter)).contains e.emitter) := by
        rw [contains_append]
        have hsing : ([x.emitter].contains e.emitter) = (e.emitter == x.emitter) := by
          cases hb : (e.emitter == x.emitter) with
          | true => simp [List.contains_cons, beq_iff_eq.mp hb]
          | false =>
            have hne : ¬ e.emitter = x.emitter := by
              intro h
              rw [h] at hb
              simp at hb
            simp [List.contains_cons, hne]
        rw [hsing]
        simp only [List.map_cons, List.contains_cons]
        cases seen.contains e.emitter <;>
          cases (e.emitter == x.emitter) <;>
          cases (t.map (fun y => y.emitter)).contains e.emitter <;> simp
      rw [hcond]
      simp

theorem dedupAux_emitters (a : String) :
    ∀ (l : List Endorsement) (seen : List String),
    ((dedupAux seen l).map (fun x => x.emitter)).contains a
      = ((l.map (fun x => x.emitter)).contains a && !(seen.contains a)) := by
  intro l
  induction l with
  | nil => intro seen; simp [dedupAux]
  | cons x t ih =>
    intro seen
    simp only [dedupAux, List.map_cons, List.contains_cons]
    by_cases hx : seen.contains x.emitter
    · simp only [hx, if_true]
      rw [ih seen]
      cases hax : (a == x.emitter) with
      | true =>
        have hae : a = x.emitter := beq_iff_eq.mp hax
        rw [hae, hx]
        simp
      | false => simp
    · simp only [hx, Bool.false_eq_true, if_false, List.map_cons, List.contains_cons]
      rw [ih (seen ++ [x.emitter]), contains_append]
      have hsing : ([x.emitter].contains a) = (a == x.emitter) := by
        cases hb : (a == x.emitter) with
        | true => simp [List.contains_cons, beq_iff_eq.mp hb]
        | false =>
          have hne : ¬ a = x.emitter := by
            intro h
            rw [h] at hb
            simp at hb
          simp [List.contains_cons, hne]
      rw [hsing]
      cases hax : (a == x.emitter) with
      | true =>
        have hae : a = x.emitter := beq_iff_eq.mp hax
        have hxf : seen.contains x.emitter = false := by
          cases h : seen.contains x.emitter
          · rfl
          · exact absurd h hx
        have hxm : x.emitter ∉ seen := by simpa using hxf
        rw [hae]
        simp [hxf, hxm]
      | false => simp [hax]

theorem endsP_isSome (s : Store) (v : String) :
    (endsP s v).isSome = (qfind s.queries v).isSome := by
  unfold endsP
  cases qfind s.queries v <;> rfl

theorem endsP_none (s : Store) (v : String) (h : qfind s.queries v = none) :
    endsP s v = none := by
  unfold endsP
  rw [h]
  rfl

theorem endsP_some (s : Store) (v : String) (qi : QueryInfo)
    (h : qfind s.queries v = some qi) :
    endsP s v = some (qi.endorsements.map (fun ei => ei.e)) := by
  unfold endsP
  rw [h]
  rfl

theorem endsP_obsF (s : Store) (v : String) :
    endsP s v = (obsF s v).map (fun t => t.2.2.2) := by
  unfold endsP obsF
  cases qfind s.queries v <;> rfl

theorem endorsementsOf_endsP (s : Store) (u : String) :
    endorsementsOf s u = (endsP s u).getD [] := by
  unfold endorsementsOf endsP
  cases qfind s.queries u <;> rfl

theorem map_wrap_e : ∀ (l : List Endorsement),
    (l.map (fun e => ({ e := e } : EndorsementInfo))).map (fun ei => ei.e) = l := by
  intro l
  induction l with
  | nil => rfl
  | cons x t ih => simp only [List.map_cons, ih]

theorem any_emitter_contains (l : List EndorsementInfo) (a : String) :
    (l.any (fun e2 => e2.e.emitter = a)) = (l.map (fun ei => ei.e.emitter)).contains a := by
  induction l with
  | nil => rfl
  | cons x t ih =>
    simp only [List.any_cons, List.map_cons, List.contains_cons, ih]
    have hb : (decide (x.e.emitter = a)) = (a == x.e.emitter) := by
      cases hc : (a == x.e.emitter) with
      | true => simp [beq_iff_eq.mp hc]
      | false =>
        have hne : ¬ x.e.emitter = a := by
          intro h
          rw [h] at hc
          simp at hc
        simp [hne]
    rw [hb]

theorem aei_eq (s : Store) (e : Endorsement) (qi : QueryInfo) :
    addEndorsementInternal s e qi =
      if qi.endorsements.any (fun e2 => e2.e.emitter = e.emitter) then ((false, qi), s)
      else ((true, { qi with endorsements := qi.endorsements ++ [{ e := e }] }),
            e.conditions.foldl (aeiStep qi) s) := rfl

theorem aeiStep_endsP (qi : QueryInfo) (s2 : Store) (c v : String) :
    endsP (aeiStep qi s2 c) v = endsP s2 v := by
  unfold aeiStep
  cases hc : qfind s2.queries c with
  | none => rfl
  | some qic =>
    unfold endsP
    rw [qfind_qset]
    by_cases hv : v = c
    · rw [if_pos hv, hv, hc]
      rfl
    · rw [if_neg hv]

theorem aeiStep_pendE (qi : QueryInfo) (s2 : Store) (c : String) :
    (aeiStep qi s2 c).pendingEndorsements = s2.pendingEndorsements := by
  unfold aeiStep
  cases qfind s2.queries c <;> rfl

theorem foldl_aeiStep_endsP (qi : QueryInfo) :
    ∀ (cs : List String) (s2 : Store) (v : String),
    endsP (cs.foldl (aeiStep qi) s2) v = endsP s2 v := by
  intro cs
  induction cs with
  | nil => intro s2 v; rfl
  | cons c rest ih =>
    intro s2 v
    simp only [List.foldl_cons]
    rw [ih, aeiStep_endsP]

theorem foldl_aeiStep_pendE (qi : QueryInfo) :
    ∀ (cs : List String) (s2 : Store),
    (cs.foldl (aeiStep qi) s2).pendingEndorsements = s2.pendingEndorsements := by
  intro cs
  induction cs with
  | nil => intro s2; rfl
  | cons c rest ih =>
    intro s2
    simp only [List.foldl_cons]
    rw [ih, aeiStep_pendE]

theorem aei_endsP (s : Store) (e : Endorsement) (qi : QueryInfo) (v : String) :
    endsP (addEndorsementInternal s e qi).2 v = endsP s v := by
  rw [aei_eq]
  by_cases hd : qi.endorsements.any (fun e2 => e2.e.emitter = e.emitter)
  · simp [hd]
  · simp only [hd, Bool.false_eq_true, if_false]
    exact foldl_aeiStep_endsP qi e.conditions s v

theorem aei_pendE (s : Store) (e : Endorsement) (qi : QueryInfo) :
    (addEndorsementInternal s e qi).2.pendingEndorsements = s.pendingEndorsements := by
  rw [aei_eq]
  by_cases hd : qi.endorsements.any (fun e2 => e2.e.emitter = e.emitter)
  · simp [hd]
  · simp only [hd, Bool.false_eq_true, if_false]
    exact foldl_aeiStep_pendE qi e.conditions s

theorem aei_ends_result (s : Store) (e : Endorsement) (qi : QueryInfo) :
    (addEndorsementInternal s e qi).1.2.endorsements =
      if (qi.endorsements.map (fun ei => ei.e.emitter)).contains e.emitter
      then qi.endorsements
      else qi.endorsements ++ [{ e := e }] := by
  rw [aei_eq, ← any_emitter_contains]
  by_cases hd : qi.endorsements.any (fun e2 => e2.e.emitter = e.emitter) <;> simp [hd]

theorem injectLoop_spec (u : String) :
    ∀ (pes : List Endorsement) (s : Store) (qi : QueryInfo),
    (injectLoop u pes s qi).1 = pes.filter (fun pe => ¬ pe.uuid = u) ∧
    (injectLoop u pes s qi).2.1.endorsements
      = qi.endorsements ++
        (dedupAux (qi.endorsements.map (fun ei => ei.e.emitter))
          (pes.filter (fun pe => pe.uuid = u))).map (fun e => ({ e := e } : EndorsementInfo)) ∧
    (∀ v, endsP (injectLoop u pes s qi).2.2 v = endsP s v) ∧
    (injectLoop u pes s qi).2.2.pendingEndorsements = s.pendingEndorsements := by
  intro pes
  induction pes with
  | nil =>
    intro s qi
    exact ⟨rfl, by simp [injectLoop, dedupAux], fun v => rfl, rfl⟩
  | cons pe rest ih =>
    intro s qi
    simp only [injectLoop]
    by_cases hpe : pe.uuid = u
    · simp only [hpe, if_true]
      obtain ⟨h1, h2, h3, h4⟩ :=
        ih (addEndorsementInternal s pe qi).2 (addEndorsementInternal s pe qi).1.2
      have hfilt1 : (pe :: rest).filter (fun x => ¬ x.uuid = u)
          = rest.filter (fun x => ¬ x.uuid = u) := by
        simp [List.filter_cons, hpe]
      have hfilt2 : (pe :: rest).filter (fun x => x.uuid = u)
          = pe :: rest.filter (fun x => x.uuid = u) := by
        simp [List.filter_cons, hpe]
      refine ⟨hfilt1 ▸ h1, ?_, fun v => (h3 v).trans (aei_endsP s pe qi v),
        h4.trans (aei_pendE s pe qi)⟩
      rw [h2, hfilt2, aei_ends_result]
      by_cases hdup : (qi.endorsements.map (fun ei => ei.e.emitter)).contains pe.emitter
      · rw [if_pos hdup]
        have hred : dedupAux (qi.endorsements.map (fun ei => ei.e.emitter))
              (pe :: rest.filter (fun x => x.uuid = u))
            = dedupAux (qi.endorsements.map (fun ei => ei.e.emitter))
              (rest.filter (fun x => x.uuid = u)) := by
          simp only [dedupAux]
          rw [if_pos hdup]
        rw [hred]
      · rw [if_neg hdup]
        have hred : dedupAux (qi.endorsements.map (fun ei => ei.e.emitter))
              (pe :: rest.filter (fun x => x.uuid = u))
            = pe :: dedupAux (qi.endorsements.map (fun ei => ei.e.emitter) ++ [pe.emitter])
              (rest.filter (fun x => x.uuid = u)) := by
          simp only [dedupAux]
          rw [if_neg hdup]
        rw [hred]
        simp [List.map_append, List.append_assoc]
    · simp only [hpe, if_false]
      obtain ⟨h1, h2, h3, h4⟩ := ih s qi
      have hfilt1 : (pe :: rest).filter (fun x => ¬ x.uuid = u)
          = pe :: rest.filter (fun x => ¬ x.uuid = u) := by
        simp [List.filter_cons, hpe]
      have hfilt2 : (pe :: rest).filter (fun x => x.uuid = u)
          = rest.filter (fun x => x.uuid = u) := by
        simp [List.filter_cons, hpe]
      exact ⟨by rw [hfilt1, ← h1], by rw [hfilt2, ← h2], h3, h4⟩

theorem filter_filter_combine {α : Type} (p q r : α → Bool)
    (h : ∀ e, r e = (p e && q e)) :
    ∀ l : List α, (l.filter p).filter q = l.filter r := by
  intro l
  induction l with
  | nil => rfl
  | cons x t ih =>
    have hr := h x
    cases hp : p x <;> cases hq : q x <;>
      rw [hp, hq] at hr <;>
      simp [List.filter_cons, hp, hq, hr, ih]

theorem run_snoc (thr : Nat) (ops : List QOp) (op : QOp) :
    run thr (ops ++ [op]) = applyOp (run thr ops) op := by
  unfold run
  rw [List.foldl_append]
  rfl

theorem cascade_endsP (s2 : Store) (qi3 : QueryInfo) (q : Query) (L : List Endorsement)
    (hkc2 : KeyCons s2) (hq : qi3.query = some q)
    (hL : qi3.endorsements.map (fun ei => ei.e) = L) (v : String) :
    endsP (cascadeMark (cmFuel s2) s2 qi3) v
      = if v = q.uuid then some L else endsP s2 v := by
  rw [endsP_obsF, cascadeMark_obs _ _ _ v hkc2]
  by_cases hv : v = q.uuid
  · rw [if_pos ⟨by unfold cmFuel; exact Nat.succ_ne_zero _, by rw [hq]; simp [hv]⟩, if_pos hv]
    rw [← hL]
    rfl
  · have hneg : ¬(cmFuel s2 ≠ 0 ∧ qi3.query.map Query.uuid = some v) := by
      intro hcon
      have hc := hcon.2
      rw [hq] at hc
      simp at hc
      exact hv hc.symm
    rw [if_neg hneg, if_neg hv, ← endsP_obsF]

theorem AddQuery_absent_spec (s : Store) (q : Query) (hkc : KeyCons s)
    (habs : qfind s.queries q.uuid = none) :
    (∀ v, endsP (AddQuery s q).2 v =
      if v = q.uuid
      then some (dedupByEmitter (s.pendingEndorsements.filter (fun pe => pe.uuid = q.uuid)))
      else endsP s v) ∧
    (AddQuery s q).2.pendingEndorsements
      = s.pendingEndorsements.filter (fun pe => ¬ pe.uuid = q.uuid) ∧
    KeyCons (AddQuery s q).2 := by
  obtain ⟨h1, h2, h3, h4⟩ := injectLoop_spec q.uuid s.pendingEndorsements s ({ query := some q })
  have hkcr : KeyCons (injectLoop q.uuid s.pendingEndorsements s ({ query := some q })).2.2 :=
    injectLoop_keycons q.uuid s.pendingEndorsements s ({ query := some q }) hkc
  have hq3query : (injectLoop q.uuid s.pendingEndorsements s ({ query := some q })).2.1.query
      = some q :=
    (injectLoop_qi_fields q.uuid s.pendingEndorsements s ({ query := some q })).1
  have hsimp : ((({ query := some q } : QueryInfo)).endorsements ++
        (dedupAux ((({ query := some q } : QueryInfo)).endorsements.map (fun ei => ei.e.emitter))
          (s.pendingEndorsements.filter (fun pe => pe.uuid = q.uuid))).map
            (fun e => ({ e := e } : EndorsementInfo))).map (fun ei => ei.e)
      = dedupByEmitter (s.pendingEndorsements.filter (fun pe => pe.uuid = q.uuid)) := by
    rw [show (({ query := some q } : QueryInfo)).endorsements = [] from rfl]
    rw [show (([] : List EndorsementInfo)).map (fun ei => ei.e.emitter) = [] from rfl]
    rw [List.nil_append, map_wrap_e]
    rfl
  simp only [AddQuery, habs]
  refine ⟨?_, ?_, ?_⟩
  · intro v
    refine (cascade_endsP _ _ q
      (dedupByEmitter (s.pendingEndorsements.filter (fun pe => pe.uuid = q.uuid)))
      ?_ ?_ ?_ v).trans ?_
    · exact hkcr
    · exact hq3query
    · exact (congrArg (fun t => t.map (fun ei => ei.e)) h2).trans hsimp
    · by_cases hv : v = q.uuid
      · rw [if_pos hv, if_pos hv]
      · rw [if_neg hv, if_neg hv]
        exact h3 v
  · rw [(cascadeMark_fields _ _ _).2.1]
    exact h1
  · exact cascadeMark_keycons _ _ _ hkcr

theorem AddEndorsement_absent_spec (s : Store) (e : Endorsement)
    (habs : qfind s.queries e.uuid = none) :
    (AddEndorsement s e).2
      = { s with pendingEndorsements := s.pendingEndorsements ++ [e] } := by
  simp only [AddEndorsement, habs]

theorem AddEndorsement_present_spec (s : Store) (e : Endorsement) (qi : QueryInfo)
    (hkc : KeyCons s) (hfind : qfind s.queries e.uuid = some qi) :
    (∀ v, endsP (AddEndorsement s e).2 v =
      if v = e.uuid
      then some ((addEndorsementInternal s e qi).1.2.endorsements.map (fun ei => ei.e))
      else endsP s v) ∧
    (AddEndorsement s e).2.pendingEndorsements = s.pendingEndorsements ∧
    KeyCons (AddEndorsement s e).2 := by
  obtain ⟨qv, hq1, hq2⟩ := hkc e.uuid qi hfind
  have hkcr : KeyCons (addEndorsementInternal s e qi).2 := aei_keycons s e qi hkc
  have hq3 : (addEndorsementInternal s e qi).1.2.query = some qv :=
    (aei_qi_fields s e qi).1.trans hq1
  simp only [AddEndorsement, hfind]
  refine ⟨?_, ?_, ?_⟩
  · intro v
    refine (cascade_endsP _ _ qv
      ((addEndorsementInternal s e qi).1.2.endorsements.map (fun ei => ei.e))
      ?_ ?_ rfl v).trans ?_
    · exact hkcr
    · exact hq3
    · rw [hq2]
      by_cases hv : v = e.uuid
      · rw [if_pos hv, if_pos hv]
      · rw [if_neg hv, if_neg hv]
        exact aei_endsP s e qi v
  · rw [(cascadeMark_fields _ _ _).2.1]
    exact aei_pendE s e qi
  · exact cascadeMark_keycons _ _ _ hkcr

theorem run_dedup_inv (thr : Nat) (ops : List QOp) :
    KeyCons (run thr ops) ∧
    (∀ u, (endsP (run thr ops) u).isSome = true →
      endsP (run thr ops) u = some (dedupByEmitter (arrivalsFor u ops))) ∧
    (run thr ops).pendingEndorsements
      = (arrivals ops).filter (fun e2 => !(endsP (run thr ops) e2.uuid).isSome) := by
  induction ops using List.reverseRecOn with
  | nil =>
    refine ⟨?_, ?_, rfl⟩
    · intro u qi h
      simp [run, qfind] at h
    · intro u hsome
      simp [run, endsP, qfind] at hsome
  | append_singleton ops op ih =>
    obtain ⟨ihK, ihA, ihB⟩ := ih
    rw [run_snoc]
    cases op with
    | addQ q =>
      rw [show applyOp (run thr ops) (QOp.addQ q) = (AddQuery (run thr ops) q).2 from rfl]
      have harr : arrivals (ops ++ [QOp.addQ q]) = arrivals ops := by
        rw [arrivals_append]
        simp [arrivals]
      cases hfind : qfind (run thr ops).queries q.uuid with
      | some qi0 =>
        have hsame : (AddQuery (run thr ops) q).2 = run thr ops := by
          simp only [AddQuery, hfind]
        rw [hsame]
        refine ⟨ihK, ?_, ?_⟩
        · intro u hsome
          rw [arrivalsFor_snoc_addQ]
          exact ihA u hsome
        · rw [harr]
          exact ihB
      | none =>
        obtain ⟨hends, hpend, hkc'⟩ := AddQuery_absent_spec (run thr ops) q ihK hfind
        refine ⟨hkc', ?_, ?_⟩
        · intro u hsome
          rw [arrivalsFor_snoc_addQ]
          rw [hends u] at hsome ⊢
          by_cases hu : u = q.uuid
          · rw [if_pos hu] at hsome ⊢
            rw [hu, ihB]
            have hcomb : ((arrivals ops).filter
                  (fun e2 => !(endsP (run thr ops) e2.uuid).isSome)).filter
                  (fun pe => pe.uuid = q.uuid)
                = (arrivals ops).filter (fun e2 => e2.uuid = q.uuid) := by
              refine filter_filter_combine _ _ _ ?_ (arrivals ops)
              intro e2
              by_cases he2 : e2.uuid = q.uuid
              · rw [he2]
                rw [show endsP (run thr ops) q.uuid = none from endsP_none _ _ hfind]
                simp
              · simp [he2]
            rw [hcomb]
            rfl
          · rw [if_neg hu] at hsome ⊢
            exact ihA u hsome
        · rw [harr, hpend, ihB]
          refine filter_filter_combine _ _ _ ?_ (arrivals ops)
          intro e2
          rw [hends e2.uuid]
          by_cases he2 : e2.uuid = q.uuid
          · rw [if_pos he2]
            simp [he2]
          · rw [if_neg he2]
            simp [he2]
    | addE e =>
      rw [show applyOp (run thr ops) (QOp.addE e) = (AddEndorsement (run thr ops) e).2 from rfl]
      have harr : arrivals (ops ++ [QOp.addE e]) = arrivals ops ++ [e] := by
        rw [arrivals_append]
        rfl
      cases hfind : qfind (run thr ops).queries e.uuid with
      | none =>
        have hs' := AddEndorsement_absent_spec (run thr ops) e hfind
        rw [hs']
        refine ⟨ihK, ?_, ?_⟩
        · intro u hsome
          have hsome' : (endsP (run thr ops) u).isSome = true := hsome
          have hne : ¬ u = e.uuid := by
            intro h
            rw [h, show endsP (run thr ops) e.uuid = none from endsP_none _ _ hfind] at hsome'
            simp at hsome'
          rw [arrivalsFor_snoc_addE,
            if_neg (show ¬ e.uuid = u from fun hh => hne hh.symm), List.append_nil]
          exact ihA u hsome'
        · rw [harr]
          rw [show ({ run thr ops with
              pendingEndorsements := (run thr ops).pendingEndorsements ++ [e] } : Store).pendingEndorsements
            = (run thr ops).pendingEndorsements ++ [e] from rfl]
          have hcong : (arrivals ops ++ [e]).filter
                (fun e2 => !(endsP { run thr ops with
                  pendingEndorsements := (run thr ops).pendingEndorsements ++ [e] } e2.uuid).isSome)
              = (arrivals ops ++ [e]).filter
                (fun e2 => !(endsP (run thr ops) e2.uuid).isSome) := rfl
          rw [hcong, List.filter_append]
          rw [show ([e].filter (fun e2 => !(endsP (run thr ops) e2.uuid).isSome)) = [e] from by
            simp [List.filter, show endsP (run thr ops) e.uuid = none from endsP_none _ _ hfind]]
          rw [← ihB]
      | some qi =>
        obtain ⟨hends, hpend, hkc'⟩ := AddEndorsement_present_spec (run thr ops) e qi ihK hfind
        refine ⟨hkc', ?_, ?_⟩
        · intro u hsome
          rw [hends u] at hsome ⊢
          rw [arrivalsFor_snoc_addE]
          by_cases hu : u = e.uuid
          · rw [if_pos hu, if_pos (show e.uuid = u from hu.symm), hu]
            have hsome0 : (endsP (run thr ops) e.uuid).isSome = true := by
              rw [endsP_some _ _ qi hfind]
              rfl
            have hD := ihA e.uuid hsome0
            rw [endsP_some _ _ qi hfind] at hD
            have hD2 : qi.endorsements.map (fun ei => ei.e)
                = dedupByEmitter (arrivalsFor e.uuid ops) := Option.some.inj hD
            have hsE : qi.endorsements.map (fun ei => ei.e.emitter)
                = (dedupByEmitter (arrivalsFor e.uuid ops)).map (fun x => x.emitter) := by
              rw [← hD2, List.map_map]
              rfl
            have hcont : (qi.endorsements.map (fun ei => ei.e.emitter)).contains e.emitter
                = ((arrivalsFor e.uuid ops).map (fun x => x.emitter)).contains e.emitter := by
              rw [hsE, show dedupByEmitter (arrivalsFor e.uuid ops)
                  = dedupAux [] (arrivalsFor e.uuid ops) from rfl, dedupAux_emitters]
              simp
            rw [aei_ends_result, show dedupByEmitter (arrivalsFor e.uuid ops ++ [e])
                = dedupAux [] (arrivalsFor e.uuid ops ++ [e]) from rfl, dedupAux_snoc]
            rw [show (([] : List String)).contains e.emitter = false from rfl, Bool.false_or]
            rw [hcont]
            by_cases hC : ((arrivalsFor e.uuid ops).map (fun x => x.emitter)).contains e.emitter
              = true
            · rw [if_pos hC, if_pos hC, hD2, List.append_nil]
              rfl
            · rw [if_neg hC, if_neg hC, List.map_append, hD2]
              rfl
          · rw [if_neg hu] at hsome ⊢
            rw [if_neg (show ¬ e.uuid = u from fun hh => hu hh.symm), List.append_nil]
            exact ihA u hsome
        · rw [hpend, harr]
          have hcong : (arrivals ops ++ [e]).filter
                (fun e2 => !(endsP (AddEndorsement (run thr ops) e).2 e2.uuid).isSome)
              = (arrivals ops ++ [e]).filter
                (fun e2 => !(endsP (run thr ops) e2.uuid).isSome) := by
            apply List.filter_congr
            intro a _
            rw [hends a.uuid]
            by_cases ha : a.uuid = e.uuid
            · rw [if_pos ha, ha, endsP_some _ _ qi hfind]
              rfl
            · rw [if_neg ha]
          rw [hcong, List.filter_append]
          rw [show ([e].filter (fun e2 => !(endsP (run thr ops) e2.uuid).isSome)) = [] from by
            simp [List.filter, endsP_some _ _ qi hfind]]
          rw [List.append_nil, ← ihB]

/-- C5: for every sequence of `AddQuery` / `AddEndorsement` calls, every
query present in the resulting store holds exactly the first endorsement
per emitter among the endorsements that arrived for its uuid — duplicate
emitters are discarded, including endorsements that arrived before their
query, were parked in `pendingEndorsements` and were re-injected by
`AddQuery`. -/
theorem endorsement_dedup_first_per_emitter (thr : Nat) (ops : List QOp) (u : String)
    (h : (qfind (run thr ops).queries u).isSome = true) :
    endorsementsOf (run thr ops) u = dedupByEmitter (arrivalsFor u ops) := by
  obtain ⟨-, hA, -⟩ := run_dedup_inv thr ops
  have hs : (endsP (run thr ops) u).isSome = true := by
    rw [endsP_isSome]
    exact h
  rw [endorsementsOf_endsP, hA u hs]
  rfl

/-- Witness for C5 at a concrete scenario: an endorsement parked before
its query, re-injected on `AddQuery`, a same-emitter duplicate rejected
and a fresh emitter accepted. -/
theorem endorsement_dedup_first_per_emitter_witness :
    (qfind (run 3 dedupOps).queries "q").isSome = true ∧
    endorsementsOf (run 3 dedupOps) "q" = dedupByEmitter (arrivalsFor "q" dedupOps) :=
  ⟨by decide, endorsement_dedup_first_per_emitter 3 dedupOps "q" (by decide)⟩
